import Mathlib

/-!
Verification of the archspec-rs core: a shallow embedding in Lean 4 of the
microarchitecture knowledge graph (src/cpu/microarchitecture.rs), the platform
probes (src/cpu/detect.rs), the x86 CPUID flag decoder (src/cpuid.rs) and the
resolver algorithm, together with theorems settling the frozen specification
claims.

Modelling conventions:
- Rust `Arc<Microarchitecture>` graphs are acyclic (precondition documented in
  the source), so every node denotes a finite tree after unfolding the shared
  references; equality in Rust is structural (`PartialEq` on all fields except
  the memoized ancestor cache), hence the tree unfolding preserves all
  observable behaviour.  Nodes are modelled as a nested inductive structure.
- `HashSet<String>` becomes `Finset String`; `HashMap` becomes an association
  list (`List (key × value)`); iteration order of a `HashMap` is unspecified in
  Rust, the list order models one admissible order.
- Machine integers (`u32`, `usize`) become `Nat`; the only bit-level operation
  used by the code is `register & (1 << bit) != 0`, modelled as `Nat.testBit`.
- Fallible operations (`io::Result`, panics, the unbounded recursion of
  `fill_target_from_map` on a cyclic catalog) are modelled with `Option` /
  `Except`.
-/

/-- Compiler flag hints attached to a node (src/schema/microarchitecture.rs). -/
structure Compiler where
  versions : String
  flags : String
  name : Option String
deriving DecidableEq

/-- A microarchitecture node (struct `Microarchitecture`,
src/cpu/microarchitecture.rs lines 8-18).  The `ancestors: OnceLock<...>` cache
field is not part of the data (it memoizes the `ancestors` function below and is
explicitly excluded from equality in the source). -/
structure Microarchitecture where
  name : String
  parents : List Microarchitecture
  vendor : String
  features : Finset String
  compilers : List (String × List Compiler)
  generation : Nat

/-- The error value (src/cpu/microarchitecture.rs line 180). -/
inductive UnsupportedMicroarchitecture where
  | mk
deriving DecidableEq

mutual
/-- Structural equality on nodes, mirroring the derived-by-hand `PartialEq`
implementation of the source (which compares every field except the ancestor
cache). -/
def decEqMicro : (a b : Microarchitecture) → Decidable (a = b)
  | ⟨n1, p1, v1, f1, c1, g1⟩, ⟨n2, p2, v2, f2, c2, g2⟩ =>
    match decEqMicroList p1 p2 with
    | Decidable.isFalse h => Decidable.isFalse fun he => by cases he; exact h rfl
    | Decidable.isTrue hp =>
      match inferInstanceAs (Decidable (n1 = n2 ∧ v1 = v2 ∧ f1 = f2 ∧ c1 = c2 ∧ g1 = g2)) with
      | Decidable.isTrue ⟨e1, e2, e3, e4, e5⟩ => Decidable.isTrue (by rw [hp, e1, e2, e3, e4, e5])
      | Decidable.isFalse h => Decidable.isFalse fun he => by
          cases he; exact h ⟨rfl, rfl, rfl, rfl, rfl⟩

def decEqMicroList : (a b : List Microarchitecture) → Decidable (a = b)
  | [], [] => Decidable.isTrue rfl
  | [], _ :: _ => Decidable.isFalse nofun
  | _ :: _, [] => Decidable.isFalse nofun
  | a :: as, b :: bs =>
    match decEqMicro a b, decEqMicroList as bs with
    | Decidable.isTrue h1, Decidable.isTrue h2 => Decidable.isTrue (by rw [h1, h2])
    | Decidable.isFalse h1, _ => Decidable.isFalse fun he => by cases he; exact h1 rfl
    | _, Decidable.isFalse h2 => Decidable.isFalse fun he => by cases he; exact h2 rfl
end

instance : DecidableEq Microarchitecture := decEqMicro

/-- `Microarchitecture::generic` (src/cpu/microarchitecture.rs lines 84-92). -/
def Microarchitecture.generic (name : String) : Microarchitecture :=
  ⟨name, [], "generic", ∅, [], 0⟩

mutual
/-- `Microarchitecture::ancestors` (src/cpu/microarchitecture.rs lines 101-116):
start from a copy of `parents`, then for each parent in order append that
parent's ancestors that are not already collected. -/
def Microarchitecture.ancestors : Microarchitecture → List Microarchitecture
  | ⟨_, ps, _, _, _, _⟩ => ancestorsFrom ps ps

/-- The `for parent in &self.parents { v.extend(...) }` loop of `ancestors`. -/
def ancestorsFrom : List Microarchitecture → List Microarchitecture → List Microarchitecture
  | [], v => v
  | p :: ps, v =>
    ancestorsFrom ps (v ++ (Microarchitecture.ancestors p).filter (fun a => decide (a ∉ v)))
end

mutual
/-- `Microarchitecture::decendent_of` (src/cpu/microarchitecture.rs lines
119-126): true when `parent` equals or is an ancestor of some parent. -/
def Microarchitecture.decendent_of : Microarchitecture → Microarchitecture → Bool
  | ⟨_, ps, _, _, _, _⟩, parent => decendentAny ps parent

/-- The loop body of `decendent_of` over the parent list. -/
def decendentAny : List Microarchitecture → Microarchitecture → Bool
  | [], _ => false
  | p :: ps, parent =>
    (decide (p = parent) || Microarchitecture.decendent_of p parent) || decendentAny ps parent
end

/-- `Microarchitecture::family` (src/cpu/microarchitecture.rs lines 162-167):
follow the first parent until a node without parents is reached. -/
def Microarchitecture.family : Microarchitecture → Microarchitecture
  | ⟨n, [], v, f, c, g⟩ => ⟨n, [], v, f, c, g⟩
  | ⟨_, p :: _, _, _, _, _⟩ => p.family

/-- `Microarchitecture::node_set` (src/cpu/microarchitecture.rs lines 152-156):
the node's own name together with the names of all its ancestors. -/
def Microarchitecture.node_set (m : Microarchitecture) : Finset String :=
  insert m.name (m.ancestors.map Microarchitecture.name).toFinset

/-- `Microarchitecture::is_superset` (src/cpu/microarchitecture.rs lines
140-144). -/
def Microarchitecture.is_superset (a b : Microarchitecture) : Bool :=
  decide (b.node_set ⊆ a.node_set)

/-- `Microarchitecture::is_strict_superset` (src/cpu/microarchitecture.rs lines
132-134). -/
def Microarchitecture.is_strict_superset (a b : Microarchitecture) : Bool :=
  a.is_superset b && decide (a.name ≠ b.name)

mutual
/-- All nodes reachable from a node through the parents relation, the node
itself included.  This is not a function of the source; it captures the set of
nodes of the graph reachable from `m` and is used to state well-formedness
assumptions ("built from an acyclic catalog"). -/
def nodesOf : Microarchitecture → List Microarchitecture
  | ⟨n, ps, v, f, c, g⟩ => ⟨n, ps, v, f, c, g⟩ :: nodesOfList ps

/-- Reachable nodes from a list of starting nodes. -/
def nodesOfList : List Microarchitecture → List Microarchitecture
  | [] => []
  | p :: ps => nodesOf p ++ nodesOfList ps
end

/-- Every node of the subgraph below `m` has a duplicate-free parent list.
Holds for every graph the catalog builder produces from a catalog whose
`from` lists are duplicate-free. -/
def ParentsNodup (m : Microarchitecture) : Prop :=
  ∀ a ∈ nodesOf m, a.parents.Nodup

/-- In the subgraph below `m`, the name determines the node.  Holds for every
graph produced by the catalog builder, which keys nodes by name. -/
def NameCoherent (m : Microarchitecture) : Prop :=
  ∀ a ∈ nodesOf m, ∀ b ∈ nodesOf m, a.name = b.name → a = b

/-- The single-root-per-tree assumption of the spec: all parentless nodes
reachable from `m` coincide. -/
def SingleRoot (m : Microarchitecture) : Prop :=
  ∀ a ∈ nodesOf m, ∀ b ∈ nodesOf m, a.parents = [] → b.parents = [] → a = b

instance (m : Microarchitecture) : Decidable (ParentsNodup m) := by
  unfold ParentsNodup; infer_instance

instance (m : Microarchitecture) : Decidable (NameCoherent m) := by
  unfold NameCoherent; infer_instance

instance (m : Microarchitecture) : Decidable (SingleRoot m) := by
  unfold SingleRoot; infer_instance

/-! ### Spec-side model of the ancestor order (for claim C6)

The spec describes `ancestors` as "computed breadth-first, each ancestor
appearing once in first-discovered order".  The following definitions are
modelled from the spec's words (not from the source) to compare against the
source's `ancestors`. -/

/-- Concatenation of the parent lists of a frontier. -/
def parentsConcat : List Microarchitecture → List Microarchitecture
  | [] => []
  | m :: ms => m.parents ++ parentsConcat ms

/-- Keep the first occurrence of each element not already seen. -/
def freshOnly : List Microarchitecture → List Microarchitecture → List Microarchitecture
  | [], _ => []
  | x :: xs, seen => if x ∈ seen then freshOnly xs seen else x :: freshOnly xs (x :: seen)

/-- Modelled from the spec: breadth-first traversal of the parents relation,
collecting each ancestor once, in first-discovered order, level by level. -/
def bfsLevels : Nat → List Microarchitecture → List Microarchitecture → List Microarchitecture
  | 0, _, acc => acc
  | fuel + 1, frontier, acc =>
    match freshOnly (parentsConcat frontier) acc with
    | [] => acc
    | next => bfsLevels fuel next (acc ++ next)

/-- Modelled from the spec: the ancestors of `m` in breadth-first
first-discovered order (the fuel bounds the number of levels; the number of
reachable nodes always suffices). -/
def bfsAncestors (m : Microarchitecture) : List Microarchitecture :=
  bfsLevels (nodesOf m).length [m] []

/-! ### Concrete graphs used by witnesses and counterexamples -/

def exRoot : Microarchitecture := Microarchitecture.generic "x86_64"
def exV2 : Microarchitecture :=
  ⟨"x86_64_v2", [exRoot], "generic", {"sse", "sse2"}, [], 0⟩
def exIce : Microarchitecture :=
  ⟨"icelake", [exV2], "GenuineIntel", {"avx"}, [], 0⟩

/-- A graph on which the recursive ancestor order differs from breadth-first
order: X has parents A and B, A has parent C, C has parent D, B has parent E. -/
def exD : Microarchitecture := ⟨"D", [], "generic", ∅, [], 0⟩
def exC : Microarchitecture := ⟨"C", [exD], "generic", ∅, [], 0⟩
def exE : Microarchitecture := ⟨"E", [], "generic", ∅, [], 0⟩
def exA : Microarchitecture := ⟨"A", [exC], "generic", ∅, [], 0⟩
def exB : Microarchitecture := ⟨"B", [exE], "generic", ∅, [], 0⟩
def exX : Microarchitecture := ⟨"X", [exA, exB], "generic", ∅, [], 0⟩

/-! ### The catalog and the graph builder (src/cpu/microarchitecture.rs) -/

/-- A compiler-hint set of a catalog entry (`CompilerSet`,
src/schema/microarchitecture.rs): either several version-specific entries or a
single one. -/
inductive CompilerSet where
  | several (cs : List Compiler)
  | single (c : Compiler)
deriving DecidableEq

/-- One catalog entry (`schema::Microarchitecture`,
src/schema/microarchitecture.rs): parent names (`from`), vendor, required
features, optional compiler hints, optional generation. -/
structure CatalogEntry where
  fromNames : List String
  vendor : String
  features : List String
  compilers : Option (List (String × CompilerSet))
  generation : Option Nat
deriving DecidableEq

/-- The parsed `microarchitectures` section of the catalog.  The Rust
`HashMap<String, _>` is modelled as an association list; its iteration order is
unspecified in Rust and the list order models one admissible order. -/
abbrev Catalog := List (String × CatalogEntry)

/-- The built node map (`HashMap<String, Arc<Microarchitecture>>`). -/
abbrev Targets := List (String × Microarchitecture)

/-- Compiler-set normalization inside `known_microarchitectures` (lines
206-224): a single entry becomes a one-element list. -/
def normalizeCompilers (c : Option (List (String × CompilerSet))) :
    List (String × List Compiler) :=
  (c.getD []).map fun vc =>
    (vc.1, match vc.2 with | .several cs => cs | .single c => [c])

/-- Look up every name of a list; `none` when any is absent (the Rust code
indexes the map, which would panic). -/
def lookupAll (ts : Targets) : List String → Option (List Microarchitecture)
  | [] => some []
  | n :: ns =>
    match ts.lookup n, lookupAll ts ns with
    | some m, some ms => some (m :: ms)
    | _, _ => none

/-- `fill_target_from_map` together with the loop over catalog keys
(src/cpu/microarchitecture.rs lines 186-244): process a work list of names;
a name already built is skipped, otherwise its parents are built recursively
and the node is inserted.  The fuel makes the recursion total; `none` models
the unbounded recursion on a cyclic catalog (fuel exhaustion) or the panic on
a missing entry. -/
def fillTargets (catalog : Catalog) : Nat → List String → Targets → Option Targets
  | 0, _, _ => none
  | _ + 1, [], targets => some targets
  | fuel + 1, name :: rest, targets =>
    if (targets.lookup name).isSome then fillTargets catalog fuel rest targets
    else
      match catalog.lookup name with
      | none => none
      | some values =>
        match fillTargets catalog fuel values.fromNames targets with
        | none => none
        | some ts =>
          match lookupAll ts values.fromNames with
          | none => none
          | some parents =>
            fillTargets catalog fuel rest (ts ++ [(name,
              ⟨name, parents, values.vendor, values.features.toFinset,
               normalizeCompilers values.compilers, values.generation.getD 0⟩)])

/-- A fuel bound that is ample for every acyclic catalog: the nesting depth of
the builder recursion is bounded by the total number of names mentioned. -/
def catalogFuel (catalog : Catalog) : Nat :=
  let s := catalog.length + (catalog.map fun kv => kv.2.fromNames.length).sum + 1
  s * s + 1

/-- `known_microarchitectures` (src/cpu/microarchitecture.rs lines 182-256):
build every catalog entry, then insert a generic node named after the host
platform unless the catalog already defines that name. -/
def known_microarchitectures (catalog : Catalog) (host_platform : String) :
    Option Targets :=
  match fillTargets catalog (catalogFuel catalog) (catalog.map Prod.fst) [] with
  | none => none
  | some ts =>
    some (if (ts.lookup host_platform).isSome then ts
          else ts ++ [(host_platform, Microarchitecture.generic host_platform)])

/-- One-entry catalog used against claim C5, with a host platform the catalog
does not mention. -/
def c5Catalog : Catalog := [("foo", ⟨[], "generic", [], none, none⟩)]

/-- Catalog for the claim C8 counterexample: X has parents A and B, and B's
first-parent chain ends at R while X's ends at A. -/
def c8Catalog : Catalog :=
  [("R", ⟨[], "generic", [], none, none⟩),
   ("A", ⟨[], "generic", [], none, none⟩),
   ("B", ⟨["R"], "generic", [], none, none⟩),
   ("X", ⟨["A", "B"], "generic", [], none, none⟩)]

def c8R : Microarchitecture := ⟨"R", [], "generic", ∅, [], 0⟩
def c8A : Microarchitecture := ⟨"A", [], "generic", ∅, [], 0⟩
def c8B : Microarchitecture := ⟨"B", [c8R], "generic", ∅, [], 0⟩
def c8X : Microarchitecture := ⟨"X", [c8A, c8B], "generic", ∅, [], 0⟩

/-! ### The resolver ordering and selection (src/cpu/detect.rs) -/

/-- `compare_microarchitectures` (src/cpu/detect.rs lines 260-270): order by
ancestor count, then by own-feature count. -/
def compare_microarchitectures (a b : Microarchitecture) : Ordering :=
  (compare a.ancestors.length b.ancestors.length).then
    (compare a.features.card b.features.card)

/-- The total preorder induced by `compare_microarchitectures`. -/
def cmpLe (a b : Microarchitecture) : Prop :=
  compare_microarchitectures a b ≠ Ordering.gt

instance : DecidableRel cmpLe := fun a b =>
  inferInstanceAs (Decidable (compare_microarchitectures a b ≠ Ordering.gt))

/-- The `sorted_by(|a, b| compare_microarchitectures(a, b)).last()` idiom of
the source.  Rust's `sorted_by` is a stable sort; `List.insertionSort` is a
stable sort for the same total preorder, so the two agree. -/
def sortedLast (l : List Microarchitecture) : Option Microarchitecture :=
  (List.insertionSort cmpLe l).getLast?

/-- Steps 2-5 of the resolver (`TargetDetector::detect`, src/cpu/detect.rs
lines 391-418): choose the best generic candidate (error when none), restrict
the candidates to its strict supersets, re-sort, and fall back to the generic
candidate when the restriction is empty. -/
def resolveBest (compatible_targets : List Microarchitecture) :
    Except UnsupportedMicroarchitecture Microarchitecture :=
  match sortedLast (compatible_targets.filter fun t => decide (t.vendor = "generic")) with
  | none => Except.error UnsupportedMicroarchitecture.mk
  | some best_generic_candidate =>
    Except.ok ((sortedLast (compatible_targets.filter fun t =>
        t.is_strict_superset best_generic_candidate)).getD best_generic_candidate)

instance : DecidableEq (Except UnsupportedMicroarchitecture Microarchitecture) := fun x y =>
  match x, y with
  | Except.error a, Except.error b =>
    match a, b with
    | UnsupportedMicroarchitecture.mk, UnsupportedMicroarchitecture.mk => Decidable.isTrue rfl
  | Except.ok a, Except.ok b =>
    match decEqMicro a b with
    | Decidable.isTrue h => Decidable.isTrue (by rw [h])
    | Decidable.isFalse h => Decidable.isFalse fun he => by cases he; exact h rfl
  | Except.error _, Except.ok _ => Decidable.isFalse nofun
  | Except.ok _, Except.error _ => Decidable.isFalse nofun

/-- The candidate list used by the C1 witness. -/
def candsW : List Microarchitecture := [exRoot, exV2, exIce]

/-! ### String helpers

The Rust code works on `String`/`str` values; the helpers below model the
string operations it uses (`trim`, `contains`, `split_once`, whitespace
splitting, lowercasing) as structurally recursive functions over the
character list of a `String`, so that every definition evaluates inside the
kernel. -/

/-- Rust `str::trim` (whitespace at both ends). -/
def trimChars (cs : List Char) : List Char :=
  ((cs.dropWhile Char.isWhitespace).reverse.dropWhile Char.isWhitespace).reverse

/-- The pattern occurs at the head of the text. -/
def begMatch : List Char → List Char → Bool
  | [], _ => true
  | _ :: _, [] => false
  | p :: ps, c :: cs => decide (p = c) && begMatch ps cs

/-- The pattern occurs somewhere in the text. -/
def hasSeg : List Char → List Char → Bool
  | [], pat => pat.isEmpty
  | c :: cs, pat => begMatch pat (c :: cs) || hasSeg cs pat

/-- Rust `str::contains` for a literal pattern. -/
def hasSub (s pat : String) : Bool := hasSeg s.data pat.data

/-- Rust `str::strip`-of-a-leading-pattern: the remainder after the pattern,
when the text starts with it. -/
def dropLead : List Char → List Char → Option (List Char)
  | [], rest => some rest
  | _ :: _, [] => none
  | p :: ps, c :: cs => if p = c then dropLead ps cs else none

/-- Rust `char::is_ascii_whitespace`. -/
def isAsciiWs (c : Char) : Bool :=
  decide (c = ' ') || decide (c = '\t') || decide (c = '\n') ||
    decide (c = '\x0c') || decide (c = '\r')

/-- Whitespace-separated words (the accumulator holds the current word
reversed). -/
def wordsAux (ws : Char → Bool) : List Char → List Char → List String
  | [], cur => if cur.isEmpty then [] else [String.mk cur.reverse]
  | c :: cs, cur =>
    if ws c then
      if cur.isEmpty then wordsAux ws cs []
      else String.mk cur.reverse :: wordsAux ws cs []
    else wordsAux ws cs (c :: cur)

/-- Rust `str::split_ascii_whitespace`. -/
def asciiWords (s : String) : List String := wordsAux isAsciiWs s.data []

/-- Rust `str::split_whitespace` (the Unicode whitespace class is modelled by
`Char.isWhitespace`). -/
def uniWords (s : String) : List String := wordsAux Char.isWhitespace s.data []

/-- Rust `str::to_lowercase` (faithful on ASCII, which is all the code
compares). -/
def lowerStr (s : String) : String := String.mk (s.data.map Char.toLower)

/-! ### ProcCpuInfo (src/cpu/detect.rs lines 41-78) -/

/-- The parsed `/proc/cpuinfo` key-value map (`HashMap<String, String>`). -/
abbrev ProcCpuInfo := List (String × String)

/-- `HashMap::insert`: replace an existing binding or add a new one. -/
def insertKV : List (String × String) → String → String → List (String × String)
  | [], k, v => [(k, v)]
  | (k0, v0) :: rest, k, v =>
    if k0 = k then (k, v) :: rest else (k0, v0) :: insertKV rest k v

/-- `HashMap::get` on the parsed map (`ProcCpuInfo::get`). -/
def cpuInfoGet (info : ProcCpuInfo) (key : String) : Option String :=
  info.lookup key

/-- Split a character list at newline characters. -/
def splitNl : List Char → List (List Char)
  | [] => [[]]
  | c :: cs =>
    if c = '\n' then [] :: splitNl cs
    else
      match splitNl cs with
      | [] => [[c]]
      | l :: ls => (c :: l) :: ls

/-- `BufRead::lines`: newline-separated lines, the final empty segment
dropped, a trailing carriage return stripped from each line. -/
def linesOf (s : String) : List String :=
  let parts := splitNl s.data
  let parts := if parts.getLast? = some [] then parts.dropLast else parts
  parts.map fun l => String.mk (if l.getLast? = some '\r' then l.dropLast else l)

/-- Rust `str::split_once(':')`: split at the first colon. -/
def splitColon : List Char → Option (List Char × List Char)
  | [] => none
  | c :: cs =>
    if c = ':' then some ([], cs)
    else (splitColon cs).map fun kv => (c :: kv.1, kv.2)

/-- The parsing loop of `ProcCpuInfo::from_reader` (lines 50-67): split each
line at the first colon and trim both sides; a line without a separator ends
the block when data was already collected, otherwise it is skipped. -/
def fromLines : List String → ProcCpuInfo → ProcCpuInfo
  | [], info => info
  | line :: rest, info =>
    match splitColon line.data with
    | none => if info.isEmpty then fromLines rest info else info
    | some kv =>
      fromLines rest (insertKV info (String.mk (trimChars kv.1)) (String.mk (trimChars kv.2)))

/-- `ProcCpuInfo::from_str` (lines 46-48). -/
def ProcCpuInfo.from_str (contents : String) : ProcCpuInfo :=
  fromLines (linesOf contents) []

/-! ### The Linux probe (src/cpu/detect.rs lines 105-172) -/

/-- Value of a run of decimal digits. -/
def digitsVal (cs : List Char) : Nat :=
  cs.foldl (fun a c => a * 10 + (c.toNat - Char.toNat '0')) 0

/-- The ppc64 generation parse of `detect_linux` (lines 148-156): strip a
leading "POWER", keep the leading ascii digits, parse them (0 when absent;
the `usize` overflow failure of `parse` cannot occur for the catalog's
inputs and is not modelled). -/
def powerGeneration (cpu : String) : Nat :=
  match dropLead "POWER".data cpu.data with
  | none => 0
  | some rest =>
    let digits := rest.takeWhile fun c => c.isDigit
    if digits.isEmpty then 0 else digitsVal digits

/-- `detect_linux` (src/cpu/detect.rs lines 105-172).  The `arm_vendors`
conversion table of the schema is passed as a parameter. -/
def detect_linux (arm_vendors : List (String × String)) (arch : String)
    (cpu_info : ProcCpuInfo) : Microarchitecture :=
  if arch = "x86_64" then
    { Microarchitecture.generic "" with
      vendor := (cpuInfoGet cpu_info "vendor_id").getD "generic",
      features := (asciiWords ((cpuInfoGet cpu_info "flags").getD "")).toFinset }
  else if arch = "aarch64" then
    let vendor :=
      match cpuInfoGet cpu_info "CPU implementer" with
      | some implementer => (arm_vendors.lookup implementer).getD "generic"
      | none => "generic"
    { Microarchitecture.generic "" with
      vendor := vendor,
      features := (asciiWords ((cpuInfoGet cpu_info "Features").getD "")).toFinset }
  else if arch = "ppc64" ∨ arch = "ppc64le" then
    { Microarchitecture.generic "" with
      generation := powerGeneration ((cpuInfoGet cpu_info "cpu").getD "") }
  else if arch = "riscv64" then
    Microarchitecture.generic
      (match cpuInfoGet cpu_info "uarch" with
       | some u => if u = "sifive,u74-mc" then "u74mc" else u
       | none => "riscv64")
  else Microarchitecture.generic arch

/-! ### Candidate computation per family (src/cpu/detect.rs lines 427-548) -/

/-- The candidate filter body of `compatible_microarchitectures_for_aarch64`
(lines 451-472): reject generic nodes other than the root, require the
aarch64 family root and a matching ("generic" or detected) vendor, then
either match/ancestor-of the exact macOS model or require the feature
subset. -/
def aarchFilter (targets : Targets) (arch_root detected_info : Microarchitecture)
    (macos_model : Option Microarchitecture) : List Microarchitecture :=
  (targets.map Prod.snd).filter fun target =>
    if target.vendor = "generic" ∧ target.name ≠ "aarch64" then false
    else if ¬(arch_root = target.family ∧
        (target.vendor = "generic" ∨ target.vendor = detected_info.vendor)) then false
    else
      match macos_model with
      | some mm => decide (target = mm) || mm.decendent_of target
      | none => decide (target.features ⊆ detected_info.features)

/-- `compatible_microarchitectures_for_aarch64` (lines 427-475). -/
def compatible_microarchitectures_for_aarch64 (targets : Targets)
    (detected_info : Microarchitecture) (macos : Bool) : List Microarchitecture :=
  match targets.lookup "aarch64" with
  | none => []
  | some arch_root =>
    match macos, targets.lookup detected_info.name with
    | true, none => []
    | true, some mm => aarchFilter targets arch_root detected_info (some mm)
    | false, _ => aarchFilter targets arch_root detected_info none

/-- `compatible_microarchitectures_for_ppc64` (lines 478-501). -/
def compatible_microarchitectures_for_ppc64 (targets : Targets)
    (detected_info : Microarchitecture) (little_endian : Bool) : List Microarchitecture :=
  match targets.lookup (if little_endian then "ppc64le" else "ppc64") with
  | none => []
  | some arch_root =>
    (targets.map Prod.snd).filter fun target =>
      (decide (target = arch_root) || target.decendent_of arch_root) &&
        decide (target.generation ≤ detected_info.generation)

/-- `compatible_microarchitectures_for_x86_64` (lines 504-525). -/
def compatible_microarchitectures_for_x86_64 (targets : Targets)
    (detected_info : Microarchitecture) : List Microarchitecture :=
  match targets.lookup "x86_64" with
  | none => []
  | some arch_root =>
    (targets.map Prod.snd).filter fun target =>
      (decide (target = arch_root) || target.decendent_of arch_root) &&
        (decide (target.vendor = detected_info.vendor) || decide (target.vendor = "generic")) &&
        decide (target.features ⊆ detected_info.features)

/-- `compatible_microarchitectures_for_riscv64` (lines 528-548). -/
def compatible_microarchitectures_for_riscv64 (targets : Targets)
    (detected_info : Microarchitecture) : List Microarchitecture :=
  match targets.lookup "riscv64" with
  | none => []
  | some arch_root =>
    (targets.map Prod.snd).filter fun target =>
      (decide (target = arch_root) || target.decendent_of arch_root) &&
        (decide (target.name = detected_info.name) || decide (target.vendor = "generic"))

/-- aarch64 graph used against claim C2: the root and one generic child. -/
def aaRoot : Microarchitecture := Microarchitecture.generic "aarch64"
def aaArmv8 : Microarchitecture := ⟨"armv8a", [aaRoot], "generic", ∅, [], 0⟩
def aaTargets : Targets := [("aarch64", aaRoot), ("armv8a", aaArmv8)]

/-! ### The CPUID decoder (src/cpuid.rs) -/

/-- The four registers returned by a CPUID query (`CpuIdRegisters`).  The
`u32` values are modelled as `Nat`: the hardware returns values below 2^32
and the decoder performs no arithmetic that could overflow. -/
structure CpuIdRegisters where
  eax : Nat
  ebx : Nat
  ecx : Nat
  edx : Nat
deriving DecidableEq

/-- A CPUID capability (`CpuIdProvider::cpuid`): leaf and subleaf to the four
registers. -/
abbrev CpuIdProviderFn := Nat → Nat → CpuIdRegisters

/-- CPUID query input of the schema (`CpuIdInput`). -/
structure CpuIdInput where
  eax : Nat
  ecx : Nat
deriving DecidableEq

/-- A register selector (`CpuRegister`). -/
inductive CpuRegister where
  | eax | ebx | ecx | edx
deriving DecidableEq

/-- One declared feature bit (`CpuIdBits`). -/
structure CpuIdBits where
  name : String
  register : CpuRegister
  bit : Nat
deriving DecidableEq

/-- One flag descriptor (`CpuIdFlags`); the `description` field of the json
schema is never read by the code and is omitted. -/
structure CpuIdFlags where
  input : CpuIdInput
  bits : List CpuIdBits
deriving DecidableEq

/-- The cpuid schema (`CpuIdSchema`): vendor query input, highest-extension
query input, basic flag table, extension flag table (the inert `description`
fields omitted). -/
structure CpuIdSchema where
  vendor : CpuIdInput
  highest_extension_support : CpuIdInput
  flags : List CpuIdFlags
  extension_flags : List CpuIdFlags

/-- Select a register by name. -/
def regValue (r : CpuIdRegisters) : CpuRegister → Nat
  | .eax => r.eax
  | .ebx => r.ebx
  | .ecx => r.ecx
  | .edx => r.edx

/-- The little-endian bytes of a `u32` (the `std::mem::transmute` of register
arrays into byte arrays on the little-endian x86). -/
def u32Bytes (n : Nat) : List Nat :=
  [n % 256, n / 256 % 256, n / 65536 % 256, n / 16777216 % 256]

/-- Byte list to string (`String::from_utf8_lossy`; faithful on the ASCII
bytes real vendor/brand strings consist of). -/
def bytesToString (bs : List Nat) : String :=
  String.mk (bs.map fun b => Char.ofNat b)

/-- The result of `CpuId::detect` (struct `CpuId`). -/
structure CpuId where
  vendor : String
  brand : Option String
  features : Finset String

/-- The feature-collection loop of `CpuId::detect` (src/cpuid.rs lines
108-121): for each supported descriptor query its (leaf, subleaf) and insert
the name of every declared bit that is set. -/
def flagsFold (provider : CpuIdProviderFn) :
    List CpuIdFlags → Finset String → Finset String
  | [], acc => acc
  | flags :: rest, acc =>
    let registers := provider flags.input.eax flags.input.ecx
    flagsFold provider rest
      (flags.bits.foldl
        (fun a bits =>
          if Nat.testBit (regValue registers bits.register) bits.bit
          then insert bits.name a else a) acc)

/-- The brand string of `CpuId::detect` (lines 124-154): 48 bytes from three
extended leaves, cut at the first NUL when present (`CStr::from_bytes_until_nul`,
whole buffer otherwise), decoded and trimmed. -/
def brandOf (provider : CpuIdProviderFn) : String :=
  let r2 := provider 0x80000002 0
  let r3 := provider 0x80000003 0
  let r4 := provider 0x80000004 0
  let bytes :=
    u32Bytes r2.eax ++ u32Bytes r2.ebx ++ u32Bytes r2.ecx ++ u32Bytes r2.edx ++
    u32Bytes r3.eax ++ u32Bytes r3.ebx ++ u32Bytes r3.ecx ++ u32Bytes r3.edx ++
    u32Bytes r4.eax ++ u32Bytes r4.ebx ++ u32Bytes r4.ecx ++ u32Bytes r4.edx
  String.mk (trimChars ((bytes.takeWhile fun b => b != 0).map fun b => Char.ofNat b))

/-- `CpuId::detect` (src/cpuid.rs lines 81-161). -/
def CpuId.detect (schema : CpuIdSchema) (provider : CpuIdProviderFn) : CpuId :=
  let registers := provider schema.vendor.eax schema.vendor.ecx
  let highest_basic_support := registers.eax
  let vendor := bytesToString
    (u32Bytes registers.ebx ++ u32Bytes registers.edx ++ u32Bytes registers.ecx)
  let registers2 := provider schema.highest_extension_support.eax
    schema.highest_extension_support.ecx
  let highest_extension_support := registers2.eax
  let features := flagsFold provider
    ((schema.flags.filter fun f => decide (f.input.eax ≤ highest_basic_support)) ++
     (schema.extension_flags.filter fun f =>
       decide (f.input.eax ≤ highest_extension_support))) ∅
  let brand := if 0x80000004 ≤ highest_extension_support
    then some (brandOf provider) else none
  ⟨vendor, brand, features⟩

/-- Feature names are declared by at most one (descriptor, bit) entry across
the two flag tables, as in the real cpuid catalog. -/
def FlagNamesUnique (schema : CpuIdSchema) : Prop :=
  (∀ f1 ∈ schema.flags, ∀ f2 ∈ schema.extension_flags,
      ∀ b1 ∈ f1.bits, ∀ b2 ∈ f2.bits, b1.name ≠ b2.name) ∧
  (∀ f1 ∈ schema.flags, ∀ f2 ∈ schema.flags,
      ∀ b1 ∈ f1.bits, ∀ b2 ∈ f2.bits, b1.name = b2.name → f1 = f2 ∧ b1 = b2) ∧
  (∀ f1 ∈ schema.extension_flags, ∀ f2 ∈ schema.extension_flags,
      ∀ b1 ∈ f1.bits, ∀ b2 ∈ f2.bits, b1.name = b2.name → f1 = f2 ∧ b1 = b2)

instance (schema : CpuIdSchema) : Decidable (FlagNamesUnique schema) := by
  unfold FlagNamesUnique; infer_instance

/-- Concrete schema for the C9 witness: one basic descriptor (leaf 1) and one
extension descriptor (leaf 0x80000001). -/
def c9FlagBasic : CpuIdFlags := ⟨⟨1, 0⟩, [⟨"sse", CpuRegister.edx, 25⟩]⟩
def c9FlagExt : CpuIdFlags := ⟨⟨0x80000001, 0⟩, [⟨"lm", CpuRegister.edx, 29⟩]⟩
def c9Schema : CpuIdSchema := ⟨⟨0, 0⟩, ⟨0x80000000, 0⟩, [c9FlagBasic], [c9FlagExt]⟩

/-- Concrete provider for the C9 witness: highest basic leaf 1 with the sse
bit set at leaf 1, highest extended leaf 0x80000000 (the extension descriptor
is unsupported). -/
def c9Provider : CpuIdProviderFn := fun leaf _ =>
  if leaf = 0 then ⟨1, 0, 0, 0⟩
  else if leaf = 1 then ⟨0, 0, 0, 33554432⟩
  else if leaf = 0x80000000 then ⟨0x80000000, 0, 0, 0⟩
  else ⟨0, 0, 0, 0⟩

/-! ### The macOS and Windows probes and the detector (src/cpu/detect.rs) -/

/-- The darwin-flag conversion loop of `detect_macos` (lines 224-232): for
each (darwin token, linux tokens) pair of the table, when the darwin token is
present add the linux tokens.  The list order models one admissible iteration
order of the Rust `HashMap`. -/
def darwinConvert : List (String × String) → Finset String → Finset String
  | [], features => features
  | (darwin_flag, linux_flag) :: rest, features =>
    darwinConvert rest
      (if darwin_flag ∈ features then features ∪ (uniWords linux_flag).toFinset
       else features)

/-- `detect_macos` (src/cpu/detect.rs lines 204-258).  Sysctl failures are
modelled by `none` and are always defaulted by the code. -/
def detect_macos (darwin_flags : List (String × String))
    (sysctl : String → Option String) (arch : String) : Microarchitecture :=
  if arch = "x86_64" then
    let cpu_features := lowerStr ((sysctl "machdep.cpu.features").getD "")
    let cpu_leaf7_features := lowerStr ((sysctl "machdep.cpu.leaf7_features").getD "")
    let vendor := (sysctl "machdep.cpu.vendor").getD ""
    let features := (uniWords cpu_features).toFinset ∪
      (uniWords cpu_leaf7_features).toFinset
    { Microarchitecture.generic "" with
      vendor := vendor, features := darwinConvert darwin_flags features }
  else
    let model :=
      match (sysctl "machdep.cpu.brand_string").map lowerStr with
      | some model =>
        if hasSub model "m2" then "m2"
        else if hasSub model "m1" then "m1"
        else if hasSub model "apple" then "m1"
        else "unknown"
      | none => "unknown"
    { Microarchitecture.generic model with vendor := "Apple" }

/-- `detect_windows` (src/cpu/detect.rs lines 81-103). -/
def detect_windows (cpuid_schema : CpuIdSchema) (cpuid : CpuIdProviderFn)
    (arch : String) : Except UnsupportedMicroarchitecture Microarchitecture :=
  if arch = "x86_64" ∨ arch = "x86" then
    let c := CpuId.detect cpuid_schema cpuid
    Except.ok ⟨"", [], c.vendor, c.features, [], 0⟩
  else if arch = "ppc64" ∨ arch = "ppc64le" ∨ arch = "aarch64" ∨ arch = "riscv64" then
    Except.ok (Microarchitecture.generic arch)
  else Except.error UnsupportedMicroarchitecture.mk

/-- The environment of `TargetDetector::detect`: the injectable detector
fields (target_os, target_arch, cpu_info, the sysctl and cpuid providers)
together with the ambient OS facilities the code consults (the compile-time
constants, the uname result, the /proc/cpuinfo read, each `none` on failure)
and the process-global data (the built graph and the schema tables). -/
structure DetectEnv where
  target_os : Option String
  target_arch : Option String
  cpu_info : Option ProcCpuInfo
  sysctl : String → Option String
  cpuid : CpuIdProviderFn
  os_consts : String
  compiler_arch : String
  uname_arch : Option String
  proc_cpu_info : Option ProcCpuInfo
  targets : Targets
  arm_vendors : List (String × String)
  darwin_flags : List (String × String)
  cpuid_schema : CpuIdSchema

/-- The OS a detector run uses (line 338). -/
def osOf (env : DetectEnv) : String := env.target_os.getD env.os_consts

/-- The architecture-resolution match of `TargetDetector::detect` (lines
341-364), written per OS: on linux and windows an explicit override wins, on
linux without an override the uname machine name is used (`none` propagates
its failure), on macOS the brand-string Rosetta heuristic alone decides, and
any other OS uses the compile-time constant. -/
def resolveTargetArch (env : DetectEnv) (os : String) : Option String :=
  if os = "linux" then
    match env.target_arch with
    | some arch => some arch
    | none => env.uname_arch
  else if os = "windows" then
    match env.target_arch with
    | some arch => some arch
    | none => some env.compiler_arch
  else if os = "macos" then
    some (if hasSub ((env.sysctl "machdep.cpu.brand_string").getD "") "Apple"
      then "aarch64" else "x86_64")
  else some env.compiler_arch

/-- The per-OS draft-node computation of `detect` (lines 367-378). -/
def detectedArchFor (env : DetectEnv) (os target_arch : String) :
    Except UnsupportedMicroarchitecture Microarchitecture :=
  if os = "linux" then
    match env.cpu_info.or env.proc_cpu_info with
    | none => Except.error UnsupportedMicroarchitecture.mk
    | some info => Except.ok (detect_linux env.arm_vendors target_arch info)
  else if os = "macos" then
    Except.ok (detect_macos env.darwin_flags env.sysctl target_arch)
  else if os = "windows" then
    detect_windows env.cpuid_schema env.cpuid target_arch
  else Except.error UnsupportedMicroarchitecture.mk

/-- The candidate-set dispatch of `detect` (lines 381-389). -/
def compatibleTargetsFor (env : DetectEnv) (os target_arch : String)
    (detected : Microarchitecture) : List Microarchitecture :=
  if target_arch = "aarch64" then
    compatible_microarchitectures_for_aarch64 env.targets detected (decide (os = "macos"))
  else if target_arch = "ppc64" ∨ target_arch = "ppc64le" then
    compatible_microarchitectures_for_ppc64 env.targets detected
      (decide (target_arch = "ppc64le"))
  else if target_arch = "riscv64" then
    compatible_microarchitectures_for_riscv64 env.targets detected
  else if target_arch = "x86_64" ∨ target_arch = "x86" then
    compatible_microarchitectures_for_x86_64 env.targets detected
  else []

/-- `TargetDetector::detect` (src/cpu/detect.rs lines 337-418). -/
def TargetDetector.detect (env : DetectEnv) :
    Except UnsupportedMicroarchitecture Microarchitecture :=
  match resolveTargetArch env (osOf env) with
  | none => Except.error UnsupportedMicroarchitecture.mk
  | some target_arch =>
    match detectedArchFor env (osOf env) target_arch with
    | Except.error e => Except.error e
    | Except.ok detected =>
      resolveBest (compatibleTargetsFor env (osOf env) target_arch detected)

/-- The candidate set a detector run computes; `none` when the run errors
before candidate computation. -/
def candidateSet (env : DetectEnv) : Option (List Microarchitecture) :=
  match resolveTargetArch env (osOf env) with
  | none => none
  | some target_arch =>
    match detectedArchFor env (osOf env) target_arch with
    | Except.error _ => none
    | Except.ok detected =>
      some (compatibleTargetsFor env (osOf env) target_arch detected)

/-! ### The error conditions named by the spec (for claim C3) -/

/-- The OS is one the detector supports. -/
def osSupported (os : String) : Prop := os = "linux" ∨ os = "macos" ∨ os = "windows"

/-- A required OS query fails.  Only the Linux path propagates query
failures: uname when no architecture override is given, the /proc/cpuinfo
read when no parsed cpuinfo is injected.  The macOS sysctl reads are
defaulted by the code, never required. -/
def requiredQueryFails (env : DetectEnv) : Prop :=
  osOf env = "linux" ∧
    ((env.target_arch = none ∧ env.uname_arch = none) ∨
     (env.cpu_info = none ∧ env.proc_cpu_info = none))

/-- The detected architecture has no matching family root in the catalog:
either the root name the resolver associates with the architecture is absent
from the graph, or the architecture is none the resolver knows a root for. -/
def noFamilyRoot (targets : Targets) (arch : String) : Prop :=
  (arch = "aarch64" ∧ targets.lookup "aarch64" = none) ∨
  ((arch = "ppc64" ∨ arch = "ppc64le") ∧ targets.lookup arch = none) ∨
  (arch = "riscv64" ∧ targets.lookup "riscv64" = none) ∨
  ((arch = "x86_64" ∨ arch = "x86") ∧ targets.lookup "x86_64" = none) ∨
  (arch ∉ (["x86_64", "x86", "aarch64", "ppc64", "ppc64le", "riscv64"] : List String))

instance (os : String) : Decidable (osSupported os) := by
  unfold osSupported; infer_instance

instance (env : DetectEnv) : Decidable (requiredQueryFails env) := by
  unfold requiredQueryFails; infer_instance

instance (targets : Targets) (arch : String) : Decidable (noFamilyRoot targets arch) := by
  unfold noFamilyRoot; infer_instance

/-- The empty cpuid schema used by concrete environments. -/
def emptyCpuIdSchema : CpuIdSchema := ⟨⟨0, 0⟩, ⟨0, 0⟩, [], []⟩

/-- Environment for the C3 counterexample: target OS "freebsd", every OS
facility healthy, a graph holding the generic x86_64 root. -/
def envC3 : DetectEnv :=
  ⟨some "freebsd", none, none, fun _ => none, fun _ _ => ⟨0, 0, 0, 0⟩,
   "linux", "x86_64", some "x86_64", some [], [("x86_64", exRoot)], [], [],
   emptyCpuIdSchema⟩

/-- Environment for the C4 counterexample: an explicit x86_64 override on
macOS with an Apple brand string. -/
def envC4 : DetectEnv :=
  ⟨some "macos", some "x86_64", none,
   fun key => if key = "machdep.cpu.brand_string" then some "Apple M1 Pro" else none,
   fun _ _ => ⟨0, 0, 0, 0⟩, "macos", "x86_64", some "x86_64", none, [], [], [],
   emptyCpuIdSchema⟩

/-- Environment for the C3 witness side conditions and the detector examples:
linux on x86_64 with an injected cpuinfo and the three-node x86_64 graph. -/
def envLinux : DetectEnv :=
  ⟨some "linux", some "x86_64", some [("vendor_id", "GenuineIntel"),
     ("flags", "sse sse2 avx")], fun _ => none, fun _ _ => ⟨0, 0, 0, 0⟩,
   "linux", "x86_64", some "x86_64", none,
   [("x86_64", exRoot), ("x86_64_v2", exV2), ("icelake", exIce)], [], [],
   emptyCpuIdSchema⟩

/-! ### Lemmas about the graph model -/

theorem sizeOf_lt_of_mem_parents {p m : Microarchitecture} (h : p ∈ m.parents) :
    sizeOf p < sizeOf m := by
  obtain ⟨n, ps, v, f, c, g⟩ := m
  have h1 : sizeOf p < sizeOf ps := List.sizeOf_lt_of_mem h
  simp only [Microarchitecture.mk.sizeOf_spec]
  omega

/-- Induction over the (acyclic, hence tree-shaped) parents relation. -/
theorem arch_induction (P : Microarchitecture → Prop)
    (step : ∀ m, (∀ p ∈ m.parents, P p) → P m) : ∀ m, P m := by
  have key : ∀ n : Nat, ∀ m : Microarchitecture, sizeOf m < n → P m := by
    intro n
    induction n with
    | zero => intro m h; omega
    | succ k ih =>
      intro m h
      exact step m fun p hp => ih p (by have := sizeOf_lt_of_mem_parents hp; omega)
  intro m
  exact key (sizeOf m + 1) m (by omega)

theorem mem_ancestorsFrom {a : Microarchitecture} :
    ∀ {ps v : List Microarchitecture},
      a ∈ ancestorsFrom ps v ↔ a ∈ v ∨ ∃ p ∈ ps, a ∈ p.ancestors := by
  intro ps
  induction ps with
  | nil => intro v; simp [ancestorsFrom]
  | cons p ps ih =>
    intro v
    rw [ancestorsFrom, ih]
    simp only [List.mem_append, List.mem_filter, List.mem_cons, decide_eq_true_eq]
    constructor
    · rintro ((hv | ⟨ha, _⟩) | ⟨q, hq, ha⟩)
      · exact Or.inl hv
      · exact Or.inr ⟨p, Or.inl rfl, ha⟩
      · exact Or.inr ⟨q, Or.inr hq, ha⟩
    · rintro (hv | ⟨q, hq | hq, ha⟩)
      · exact Or.inl (Or.inl hv)
      · by_cases hmem : a ∈ v
        · exact Or.inl (Or.inl hmem)
        · exact Or.inl (Or.inr ⟨hq ▸ ha, hmem⟩)
      · exact Or.inr ⟨q, hq, ha⟩

theorem mem_ancestors {a m : Microarchitecture} :
    a ∈ m.ancestors ↔ a ∈ m.parents ∨ ∃ p ∈ m.parents, a ∈ p.ancestors := by
  obtain ⟨n, ps, v, f, c, g⟩ := m
  rw [Microarchitecture.ancestors, mem_ancestorsFrom]

theorem sizeOf_lt_of_mem_ancestors :
    ∀ m : Microarchitecture, ∀ a ∈ m.ancestors, sizeOf a < sizeOf m := by
  apply arch_induction (fun m => ∀ a ∈ m.ancestors, sizeOf a < sizeOf m)
  intro m ih a ha
  rcases mem_ancestors.mp ha with hp | ⟨p, hp, hap⟩
  · exact sizeOf_lt_of_mem_parents hp
  · exact lt_trans (ih p hp a hap) (sizeOf_lt_of_mem_parents hp)

theorem self_not_mem_ancestors (m : Microarchitecture) : m ∉ m.ancestors :=
  fun h => absurd (sizeOf_lt_of_mem_ancestors m m h) (lt_irrefl _)

theorem mem_nodesOfList {a : Microarchitecture} :
    ∀ {l : List Microarchitecture}, a ∈ nodesOfList l ↔ ∃ p ∈ l, a ∈ nodesOf p := by
  intro l
  induction l with
  | nil => simp [nodesOfList]
  | cons p ps ih => rw [nodesOfList]; simp [ih]

theorem self_mem_nodesOf (m : Microarchitecture) : m ∈ nodesOf m := by
  obtain ⟨n, ps, v, f, c, g⟩ := m
  rw [nodesOf]
  exact List.mem_cons_self _ _

theorem mem_nodesOf_iff {a m : Microarchitecture} :
    a ∈ nodesOf m ↔ a = m ∨ a ∈ nodesOfList m.parents := by
  obtain ⟨n, ps, v, f, c, g⟩ := m
  rw [nodesOf]
  simp

theorem parents_sub_nodesOf {q m : Microarchitecture} (h : q ∈ m.parents) :
    ∀ a ∈ nodesOf q, a ∈ nodesOf m := by
  intro a ha
  exact mem_nodesOf_iff.mpr (Or.inr (mem_nodesOfList.mpr ⟨q, h, ha⟩))

theorem nodesOf_trans {p m : Microarchitecture} (h : p ∈ nodesOf m) :
    ∀ a ∈ nodesOf p, a ∈ nodesOf m := by
  induction m using arch_induction with
  | step m ih =>
    rcases mem_nodesOf_iff.mp h with rfl | hl
    · exact fun a ha => ha
    · obtain ⟨q, hq, hpq⟩ := mem_nodesOfList.mp hl
      exact fun a ha => parents_sub_nodesOf hq a (ih q hq hpq a ha)

/-- The ancestors of a node are exactly the nodes reachable through one or more
parent steps. -/
theorem mem_ancestors_iff_reachable :
    ∀ m : Microarchitecture, ∀ a, a ∈ m.ancestors ↔ a ∈ nodesOfList m.parents := by
  apply arch_induction (fun m => ∀ a, a ∈ m.ancestors ↔ a ∈ nodesOfList m.parents)
  intro m ih a
  rw [mem_ancestors, mem_nodesOfList]
  constructor
  · rintro (hp | ⟨p, hp, hap⟩)
    · exact ⟨a, hp, self_mem_nodesOf a⟩
    · exact ⟨p, hp, mem_nodesOf_iff.mpr (Or.inr ((ih p hp a).mp hap))⟩
  · rintro ⟨p, hp, hap⟩
    rcases mem_nodesOf_iff.mp hap with rfl | hl
    · exact Or.inl hp
    · exact Or.inr ⟨p, hp, (ih p hp a).mpr hl⟩

theorem ancestors_sub_nodesOf {m : Microarchitecture} :
    ∀ a ∈ m.ancestors, a ∈ nodesOf m := by
  intro a ha
  exact mem_nodesOf_iff.mpr (Or.inr ((mem_ancestors_iff_reachable m a).mp ha))

theorem nodup_ancestorsFrom :
    ∀ {ps v : List Microarchitecture}, v.Nodup →
      (∀ p ∈ ps, p.ancestors.Nodup) → (ancestorsFrom ps v).Nodup := by
  intro ps
  induction ps with
  | nil => intro v hv _; exact hv
  | cons p ps ih =>
    intro v hv hps
    rw [ancestorsFrom]
    apply ih
    · apply List.Nodup.append hv ((hps p (List.mem_cons_self _ _)).filter _)
      intro a hav haf
      have := (List.mem_filter.mp haf).2
      simp only [decide_eq_true_eq] at this
      exact this hav
    · exact fun q hq => hps q (List.mem_cons_of_mem _ hq)

theorem parentsNodup_mono {m p : Microarchitecture} (h : ParentsNodup m)
    (hp : p ∈ m.parents) : ParentsNodup p :=
  fun a ha => h a (parents_sub_nodesOf hp a ha)

theorem parents_nodup_of_parentsNodup {m : Microarchitecture} (h : ParentsNodup m) :
    m.parents.Nodup :=
  h m (self_mem_nodesOf m)

theorem ancestors_nodup : ∀ m : Microarchitecture, ParentsNodup m → m.ancestors.Nodup := by
  apply arch_induction (fun m => ParentsNodup m → m.ancestors.Nodup)
  intro m ih hm
  obtain ⟨n, ps, v, f, c, g⟩ := m
  rw [Microarchitecture.ancestors]
  exact nodup_ancestorsFrom (parents_nodup_of_parentsNodup hm)
    (fun p hp => ih p hp (parentsNodup_mono hm hp))

theorem family_root : ∀ m : Microarchitecture,
    m.family ∈ nodesOf m ∧ m.family.parents = [] := by
  apply arch_induction (fun m => m.family ∈ nodesOf m ∧ m.family.parents = [])
  intro m ih
  obtain ⟨n, ps, v, f, c, g⟩ := m
  match ps, ih with
  | [], _ => exact ⟨self_mem_nodesOf _, rfl⟩
  | p :: ps, ih =>
    have hp : p ∈ (Microarchitecture.mk n (p :: ps) v f c g).parents :=
      List.mem_cons_self _ _
    obtain ⟨h1, h2⟩ := ih p hp
    rw [Microarchitecture.family]
    exact ⟨parents_sub_nodesOf hp _ h1, h2⟩

example : exIce.ancestors = [exV2, exRoot] := by decide
example : exIce.family = exRoot := by decide
example : exIce.is_strict_superset exV2 = true := by decide
example : exIce.decendent_of exRoot = true := by decide
example : exRoot.is_superset exRoot = true := by decide

/-! ### Claims C6, C7, C8 -/

/-- C6 (amended): for every node built from an acyclic catalog (each node's
parent list duplicate-free, names determining nodes), `ancestors(node)`
excludes the node itself, contains each transitively reachable parent exactly
once with no duplicate names; the order is the recursive first-discovered
order of the source (parents first, then each parent's remaining ancestors),
which is not breadth-first order. -/
theorem C6_ancestors (m : Microarchitecture) (hp : ParentsNodup m) (hn : NameCoherent m) :
    m ∉ m.ancestors ∧ (m.ancestors.map Microarchitecture.name).Nodup ∧
      ∀ a, a ∈ m.ancestors ↔ a ∈ nodesOfList m.parents := by
  refine ⟨self_not_mem_ancestors m, ?_, mem_ancestors_iff_reachable m⟩
  exact (ancestors_nodup m hp).map_on fun x hx y hy hxy =>
    hn x (ancestors_sub_nodesOf x hx) y (ancestors_sub_nodesOf y hy) hxy

/-- C6 counterexample: on the concrete graph `exX` the source's `ancestors`
yields A, B, C, D, E while the breadth-first first-discovered order of the
spec is A, B, C, E, D (D is at depth three, E at depth two), so the claimed
breadth-first order is violated. -/
theorem C6_counterexample :
    exX.ancestors.map Microarchitecture.name = ["A", "B", "C", "D", "E"] ∧
    (bfsAncestors exX).map Microarchitecture.name = ["A", "B", "C", "E", "D"] ∧
    exX.ancestors ≠ bfsAncestors exX :=
  ⟨by decide, by decide, by decide⟩

/-- Witness for C6_ancestors at the concrete graph `exX`. -/
theorem C6_witness :
    exX ∉ exX.ancestors ∧ (exX.ancestors.map Microarchitecture.name).Nodup ∧
      (exA ∈ exX.ancestors ↔ exA ∈ nodesOfList exX.parents) :=
  ⟨(C6_ancestors exX (by decide) (by decide)).1,
   (C6_ancestors exX (by decide) (by decide)).2.1,
   (C6_ancestors exX (by decide) (by decide)).2.2 exA⟩

/-- C7: `is_strict_superset a b` implies `is_superset a b` and distinct names,
and `is_superset` is reflexive. -/
theorem C7_superset_relations :
    (∀ a b : Microarchitecture, a.is_strict_superset b = true →
        a.is_superset b = true ∧ a.name ≠ b.name) ∧
    ∀ a : Microarchitecture, a.is_superset a = true := by
  constructor
  · intro a b h
    rw [Microarchitecture.is_strict_superset, Bool.and_eq_true, decide_eq_true_eq] at h
    exact ⟨h.1, h.2⟩
  · intro a
    rw [Microarchitecture.is_superset, decide_eq_true_eq]

/-- Witness for C7_superset_relations at concrete nodes. -/
theorem C7_witness :
    (exIce.is_superset exV2 = true ∧ exIce.name ≠ exV2.name) ∧
      exRoot.is_superset exRoot = true :=
  ⟨C7_superset_relations.1 exIce exV2 (by decide), C7_superset_relations.2 exRoot⟩

/-- C8 (amended): under the single-root assumption stated by the spec (every
parentless node reachable from the node coincides), every ancestor has the
same family root as the node itself. -/
theorem C8_family_of_ancestors (m : Microarchitecture) (h : SingleRoot m) :
    ∀ p ∈ m.ancestors, p.family = m.family := by
  intro p hp
  have hpn : p ∈ nodesOf m := ancestors_sub_nodesOf p hp
  obtain ⟨h1, h2⟩ := family_root p
  obtain ⟨h3, h4⟩ := family_root m
  exact h p.family (nodesOf_trans hpn _ h1) m.family h3 h2 h4

/-- Witness for C8_family_of_ancestors at a concrete node and ancestor. -/
theorem C8_witness : exV2.family = exIce.family :=
  C8_family_of_ancestors exIce (by decide) exV2 (by decide)

/-! ### Lemmas about association-list lookup and the builder -/

theorem lookup_append {β : Type} (l₁ l₂ : List (String × β)) (n : String) :
    (l₁ ++ l₂).lookup n = (l₁.lookup n).or (l₂.lookup n) := by
  induction l₁ with
  | nil => rfl
  | cons kv t ih =>
    obtain ⟨k, v⟩ := kv
    by_cases h : n = k
    · subst h
      simp [List.lookup]
    · have hb : (n == k) = false := beq_false_of_ne h
      simp [List.lookup, hb, ih]

theorem lookup_isSome_or {β : Type} {o₁ o₂ : Option β} :
    (o₁.or o₂).isSome = (o₁.isSome || o₂.isSome) := by
  cases o₁ <;> cases o₂ <;> rfl

theorem lookup_singleton_isSome {β : Type} {k n : String} {m : β}
    (h : ([(k, m)].lookup n).isSome) : n = k := by
  by_cases hk : n = k
  · exact hk
  · have hb : (n == k) = false := beq_false_of_ne hk
    simp [List.lookup, hb] at h

theorem lookup_isSome_iff_mem {β : Type} {l : List (String × β)} {n : String} :
    (l.lookup n).isSome ↔ n ∈ l.map Prod.fst := by
  induction l with
  | nil => simp [List.lookup]
  | cons kv t ih =>
    obtain ⟨k, v⟩ := kv
    by_cases h : n = k
    · subst h
      simp [List.lookup]
    · have hb : (n == k) = false := beq_false_of_ne h
      simp [List.lookup, hb, ih, h]

theorem fillTargets_mono {catalog : Catalog} :
    ∀ {fuel : Nat} {names : List String} {ts ts' : Targets},
      fillTargets catalog fuel names ts = some ts' →
      ∀ n, (ts.lookup n).isSome → (ts'.lookup n).isSome := by
  intro fuel
  induction fuel with
  | zero =>
    intro names ts ts' h
    rw [fillTargets] at h
    cases h
  | succ k ih =>
    intro names ts ts' h n hn
    match names with
    | [] =>
      rw [fillTargets] at h
      cases h
      exact hn
    | name :: rest =>
      rw [fillTargets] at h
      split at h
      · exact ih h n hn
      · split at h
        · cases h
        · split at h
          · cases h
          next ts1 hf =>
            split at h
            · cases h
            · apply ih h n
              rw [lookup_append, lookup_isSome_or, ih hf n hn]
              rfl

theorem fillTargets_covers {catalog : Catalog} :
    ∀ {fuel : Nat} {names : List String} {ts ts' : Targets},
      fillTargets catalog fuel names ts = some ts' →
      ∀ n ∈ names, (ts'.lookup n).isSome := by
  intro fuel
  induction fuel with
  | zero =>
    intro names ts ts' h
    rw [fillTargets] at h
    cases h
  | succ k ih =>
    intro names ts ts' h n hn
    match names with
    | [] => cases hn
    | name :: rest =>
      rw [fillTargets] at h
      split at h
      next hpres =>
        rcases List.mem_cons.mp hn with rfl | hr
        · exact fillTargets_mono h n hpres
        · exact ih h n hr
      next hpres =>
        split at h
        · cases h
        next values hc =>
          split at h
          · cases h
          next ts1 hf =>
            split at h
            · cases h
            next parents hl =>
              rcases List.mem_cons.mp hn with rfl | hr
              · apply fillTargets_mono h n
                rw [lookup_append, lookup_isSome_or]
                have hone : (([(n, (⟨n, parents, values.vendor, values.features.toFinset,
                    normalizeCompilers values.compilers, values.generation.getD 0⟩ :
                    Microarchitecture))] : Targets).lookup n).isSome = true := by
                  simp [List.lookup]
                rw [hone]
                exact Bool.or_true _
              · exact ih h n hr

theorem fillTargets_subset {catalog : Catalog} :
    ∀ {fuel : Nat} {names : List String} {ts ts' : Targets},
      fillTargets catalog fuel names ts = some ts' →
      ∀ n, (ts'.lookup n).isSome →
        (ts.lookup n).isSome ∨ (catalog.lookup n).isSome := by
  intro fuel
  induction fuel with
  | zero =>
    intro names ts ts' h
    rw [fillTargets] at h
    cases h
  | succ k ih =>
    intro names ts ts' h n hn
    match names with
    | [] =>
      rw [fillTargets] at h
      cases h
      exact Or.inl hn
    | name :: rest =>
      rw [fillTargets] at h
      split at h
      · exact ih h n hn
      · split at h
        · cases h
        next values hc =>
          split at h
          · cases h
          next ts1 hf =>
            split at h
            · cases h
            · rcases ih h n hn with happ | hcat
              · rw [lookup_append, lookup_isSome_or] at happ
                rcases Bool.or_eq_true_iff.mp happ with h1 | h2
                · exact ih hf n h1
                · have := lookup_singleton_isSome h2
                  subst this
                  exact Or.inr (by rw [hc]; rfl)
              · exact Or.inr hcat

/-! ### Claim C5 -/

/-- C5 (amended): for every catalog and host platform, whenever the builder
succeeds, the names of the built graph are exactly the catalog names plus
(at most) the host-platform name: the only node the system may add beyond the
catalog is the generic host-platform node inserted by
`known_microarchitectures`. -/
theorem C5_builder_names (catalog : Catalog) (host : String) (ts : Targets)
    (h : known_microarchitectures catalog host = some ts) :
    ∀ n, (ts.lookup n).isSome ↔ ((catalog.lookup n).isSome ∨ n = host) := by
  intro n
  rw [known_microarchitectures] at h
  cases hfill : fillTargets catalog (catalogFuel catalog) (catalog.map Prod.fst) [] with
  | none => rw [hfill] at h; cases h
  | some base =>
    rw [hfill] at h
    have base_iff : ∀ x, ((base.lookup x).isSome ↔ (catalog.lookup x).isSome) := by
      intro x
      constructor
      · intro hx
        rcases fillTargets_subset hfill x hx with hempty | hcat
        · cases hempty
        · exact hcat
      · intro hx
        exact fillTargets_covers hfill x
          (by rw [lookup_isSome_iff_mem] at hx; exact hx)
    cases h
    split
    next hhost =>
      constructor
      · intro hx
        exact Or.inl ((base_iff n).mp hx)
      · rintro (hx | rfl)
        · exact (base_iff n).mpr hx
        · exact hhost
    next hhost =>
      rw [lookup_append, lookup_isSome_or]
      constructor
      · intro hx
        rcases Bool.or_eq_true_iff.mp hx with h1 | h2
        · exact Or.inl ((base_iff n).mp h1)
        · exact Or.inr (lookup_singleton_isSome h2)
      · rintro (hx | rfl)
        · rw [(base_iff n).mpr hx]
          rfl
        · have : ((([(n, Microarchitecture.generic n)] : Targets).lookup n).isSome) := by
            simp [List.lookup]
          rw [this]
          exact Bool.or_true _

/-- C5 counterexample: the builder, run on a one-entry catalog on a host whose
platform string the catalog does not define, adds a generic node named after
the host platform, so the built name set differs from the catalog name set. -/
theorem C5_counterexample :
    known_microarchitectures c5Catalog "x86_64" =
      some [("foo", ⟨"foo", [], "generic", ∅, [], 0⟩),
            ("x86_64", Microarchitecture.generic "x86_64")] ∧
    c5Catalog.lookup "x86_64" = none :=
  ⟨by decide, by decide⟩

/-- Witness for C5_builder_names on the concrete one-entry catalog. -/
theorem C5_witness :
    ((([("foo", ⟨"foo", [], "generic", ∅, [], 0⟩),
        ("x86_64", Microarchitecture.generic "x86_64")] : Targets).lookup "foo").isSome ↔
      ((c5Catalog.lookup "foo").isSome ∨ "foo" = "x86_64")) :=
  C5_builder_names c5Catalog "x86_64" _ (by decide) "foo"

/-- C8 counterexample: in the graph built from the acyclic catalog
`c8Catalog`, node B is an ancestor of node X, B's family root is R, yet X's
family root is A (the first parent of X), so `family p = family node` fails
for the ancestor p = B. -/
theorem C8_counterexample :
    known_microarchitectures c8Catalog "R" =
      some [("R", c8R), ("A", c8A), ("B", c8B), ("X", c8X)] ∧
    c8B ∈ c8X.ancestors ∧ c8B.family = c8R ∧ c8X.family = c8A ∧ c8A ≠ c8R :=
  ⟨by decide, by decide, by decide, by decide, by decide⟩

/-! ### Lemmas about the resolver ordering -/

theorem compareMicro_eq_gt {a b : Microarchitecture} :
    compare_microarchitectures a b = Ordering.gt ↔
      (b.ancestors.length < a.ancestors.length ∨
        (a.ancestors.length = b.ancestors.length ∧ b.features.card < a.features.card)) := by
  rw [compare_microarchitectures]
  rcases Nat.lt_trichotomy a.ancestors.length b.ancestors.length with h | h | h
  · rw [Nat.compare_eq_lt.mpr h]
    simp [Ordering.then]
    omega
  · rw [Nat.compare_eq_eq.mpr h]
    simp [Ordering.then, Nat.compare_eq_gt]
    omega
  · rw [Nat.compare_eq_gt.mpr h]
    simp [Ordering.then]
    omega

theorem compareMicro_eq_lt {a b : Microarchitecture} :
    compare_microarchitectures a b = Ordering.lt ↔
      (a.ancestors.length < b.ancestors.length ∨
        (a.ancestors.length = b.ancestors.length ∧ a.features.card < b.features.card)) := by
  rw [compare_microarchitectures]
  rcases Nat.lt_trichotomy a.ancestors.length b.ancestors.length with h | h | h
  · rw [Nat.compare_eq_lt.mpr h]
    simp [Ordering.then]
    omega
  · rw [Nat.compare_eq_eq.mpr h]
    simp [Ordering.then, Nat.compare_eq_lt]
    omega
  · rw [Nat.compare_eq_gt.mpr h]
    simp [Ordering.then]
    omega

theorem cmpLe_iff {a b : Microarchitecture} :
    cmpLe a b ↔ (a.ancestors.length < b.ancestors.length ∨
      (a.ancestors.length = b.ancestors.length ∧ a.features.card ≤ b.features.card)) := by
  rw [cmpLe, ne_eq, compareMicro_eq_gt]
  omega

theorem cmpLe_refl (a : Microarchitecture) : cmpLe a a := by
  rw [cmpLe_iff]
  omega

theorem cmpLe_total (a b : Microarchitecture) : cmpLe a b ∨ cmpLe b a := by
  rw [cmpLe_iff, cmpLe_iff]
  omega

theorem cmpLe_trans {a b c : Microarchitecture} (h1 : cmpLe a b) (h2 : cmpLe b c) :
    cmpLe a c := by
  rw [cmpLe_iff] at h1 h2 ⊢
  omega

theorem cmpLe_not_lt {x r : Microarchitecture} (h : cmpLe x r) :
    compare_microarchitectures r x ≠ Ordering.lt := by
  rw [cmpLe_iff] at h
  rw [ne_eq, compareMicro_eq_lt]
  omega

theorem getLast?_mem {l : List Microarchitecture} {x : Microarchitecture}
    (h : l.getLast? = some x) : x ∈ l := by
  obtain ⟨hne, rfl⟩ := List.mem_getLast?_eq_getLast (Option.mem_def.mpr h)
  exact List.getLast_mem hne

theorem pairwise_getLast {R : Microarchitecture → Microarchitecture → Prop} :
    ∀ {l : List Microarchitecture} {x : Microarchitecture}, l.Pairwise R →
      l.getLast? = some x → ∀ y ∈ l, y = x ∨ R y x := by
  intro l
  induction l with
  | nil => intro x _ h; cases h
  | cons a t ih =>
    intro x hp hl y hy
    cases t with
    | nil =>
      have hax : a = x := by
        simpa using hl
      rcases List.mem_singleton.mp hy with rfl
      exact Or.inl hax
    | cons b t2 =>
      rw [List.getLast?_cons_cons] at hl
      rcases List.mem_cons.mp hy with rfl | hyt
      · exact Or.inr ((List.pairwise_cons.mp hp).1 x (getLast?_mem hl))
      · exact ih (List.pairwise_cons.mp hp).2 hl y hyt

theorem sortedLast_mem {l : List Microarchitecture} {x : Microarchitecture}
    (h : sortedLast l = some x) : x ∈ l :=
  (List.perm_insertionSort cmpLe l).mem_iff.mp (getLast?_mem h)

theorem sortedLast_max {l : List Microarchitecture} {x : Microarchitecture}
    (h : sortedLast l = some x) : ∀ y ∈ l, cmpLe y x := by
  intro y hy
  have hy2 : y ∈ List.insertionSort cmpLe l :=
    (List.perm_insertionSort cmpLe l).mem_iff.mpr hy
  have hs : (List.insertionSort cmpLe l).Pairwise cmpLe := by
    haveI : IsTotal Microarchitecture cmpLe := ⟨cmpLe_total⟩
    haveI : IsTrans Microarchitecture cmpLe := ⟨fun _ _ _ => cmpLe_trans⟩
    exact List.sorted_insertionSort cmpLe l
  rcases pairwise_getLast hs h y hy2 with rfl | hr
  · exact cmpLe_refl y
  · exact hr

theorem sortedLast_eq_none_iff {l : List Microarchitecture} :
    sortedLast l = none ↔ l = [] := by
  rw [sortedLast, List.getLast?_eq_none_iff]
  constructor
  · intro h
    exact ((h ▸ List.perm_insertionSort cmpLe l).symm).eq_nil
  · rintro rfl
    rfl

/-! ### Claim C1 -/

/-- C1: whenever the candidate set yields a best generic candidate, the
resolver result is: a member of the strict-superset restriction that is
maximal for the (ancestor-count, feature-count) ordering and a strict superset
of the generic candidate, when that restriction is non-empty; the generic
candidate itself otherwise.  In either case the resolver succeeds. -/
theorem C1_resolver (compatible_targets : List Microarchitecture)
    (best_generic_candidate : Microarchitecture)
    (hg : sortedLast (compatible_targets.filter fun t => decide (t.vendor = "generic")) =
      some best_generic_candidate) :
    ((compatible_targets.filter fun t => t.is_strict_superset best_generic_candidate) ≠ [] →
      ∀ r, resolveBest compatible_targets = Except.ok r →
        r ∈ (compatible_targets.filter fun t => t.is_strict_superset best_generic_candidate) ∧
        (∀ x ∈ compatible_targets.filter (fun t => t.is_strict_superset best_generic_candidate),
          compare_microarchitectures r x ≠ Ordering.lt) ∧
        r.is_strict_superset best_generic_candidate = true) ∧
    ((compatible_targets.filter fun t => t.is_strict_superset best_generic_candidate) = [] →
      resolveBest compatible_targets = Except.ok best_generic_candidate) ∧
    (resolveBest compatible_targets).isOk = true := by
  have hres : resolveBest compatible_targets =
      Except.ok ((sortedLast (compatible_targets.filter fun t =>
        t.is_strict_superset best_generic_candidate)).getD best_generic_candidate) := by
    rw [resolveBest, hg]
  refine ⟨?_, ?_, by rw [hres]; rfl⟩
  · intro hne r hr
    cases hbest : sortedLast (compatible_targets.filter fun t =>
        t.is_strict_superset best_generic_candidate) with
    | none => exact absurd (sortedLast_eq_none_iff.mp hbest) hne
    | some m =>
      rw [hres, hbest] at hr
      have hrm : r = m := by
        cases hr
        rfl
      subst hrm
      have hmem := sortedLast_mem hbest
      refine ⟨hmem, ?_, (List.mem_filter.mp hmem).2⟩
      intro x hx
      exact cmpLe_not_lt (sortedLast_max hbest x hx)
  · intro hnil
    rw [hres, sortedLast_eq_none_iff.mpr hnil]
    rfl

/-- Witness for C1_resolver on the concrete candidate list
[x86_64, x86_64_v2, icelake]: the best generic candidate is x86_64_v2 and the
resolver picks icelake, the maximal strict superset. -/
theorem C1_witness :
    exIce ∈ (candsW.filter fun t => t.is_strict_superset exV2) ∧
    compare_microarchitectures exIce exIce ≠ Ordering.lt ∧
    exIce.is_strict_superset exV2 = true ∧
    (resolveBest candsW).isOk = true := by
  have h := C1_resolver candsW exV2 (by decide)
  obtain ⟨hmem, hmax, hstrict⟩ := h.1 (by decide) exIce (by decide)
  exact ⟨hmem, hmax exIce hmem, hstrict, h.2.2⟩

/-! ### Claim C10 -/

/-- C10: on Linux the draft vendor falls back to the sentinel "generic"
whenever it cannot be determined: an x86_64 cpuinfo text without a
"vendor_id" key, an aarch64 text without a "CPU implementer" key, and an
aarch64 text whose implementer code is missing from the ARM vendor table all
produce the vendor "generic". -/
theorem C10_vendor_fallback :
    (∀ contents : String, ∀ arm_vendors : List (String × String),
       cpuInfoGet (ProcCpuInfo.from_str contents) "vendor_id" = none →
       (detect_linux arm_vendors "x86_64" (ProcCpuInfo.from_str contents)).vendor =
         "generic") ∧
    (∀ contents : String, ∀ arm_vendors : List (String × String),
       cpuInfoGet (ProcCpuInfo.from_str contents) "CPU implementer" = none →
       (detect_linux arm_vendors "aarch64" (ProcCpuInfo.from_str contents)).vendor =
         "generic") ∧
    (∀ contents : String, ∀ arm_vendors : List (String × String), ∀ code : String,
       cpuInfoGet (ProcCpuInfo.from_str contents) "CPU implementer" = some code →
       arm_vendors.lookup code = none →
       (detect_linux arm_vendors "aarch64" (ProcCpuInfo.from_str contents)).vendor =
         "generic") := by
  refine ⟨?_, ?_, ?_⟩
  · intro contents arm_vendors h
    simp only [detect_linux, if_pos rfl, h]
    rfl
  · intro contents arm_vendors h
    have hne : ("aarch64" : String) ≠ "x86_64" := by decide
    simp only [detect_linux, if_neg hne, eq_self_iff_true, if_true, h]
  · intro contents arm_vendors code h1 h2
    have hne : ("aarch64" : String) ≠ "x86_64" := by decide
    simp only [detect_linux, if_neg hne, eq_self_iff_true, if_true, h1, h2]
    rfl

/-- Witness for C10_vendor_fallback on three concrete cpuinfo texts. -/
theorem C10_witness :
    (detect_linux [] "x86_64" (ProcCpuInfo.from_str "flags : fpu sse")).vendor =
      "generic" ∧
    (detect_linux [] "aarch64" (ProcCpuInfo.from_str "Features : asimd")).vendor =
      "generic" ∧
    (detect_linux [("0x41", "ARM")] "aarch64"
        (ProcCpuInfo.from_str "CPU implementer : 0x99")).vendor = "generic" :=
  ⟨C10_vendor_fallback.1 "flags : fpu sse" [] (by decide),
   C10_vendor_fallback.2.1 "Features : asimd" [] (by decide),
   C10_vendor_fallback.2.2 "CPU implementer : 0x99" [("0x41", "ARM")] "0x99"
     (by decide) (by decide)⟩

/-! ### Claim C2 -/

/-- C2 (amended): for every draft node on non-macOS aarch64, when the aarch64
root exists in the graph, the candidate set consists of exactly the graph
nodes whose family root is the aarch64 root, whose vendor is "generic" or the
draft's vendor, and whose own features are a subset of the draft's features —
restricted further (the exclusion the claim omits) to nodes that are not
generic nodes other than the aarch64 root itself. -/
theorem C2_aarch64_candidates (targets : Targets) (detected : Microarchitecture)
    (arch_root : Microarchitecture) (hr : targets.lookup "aarch64" = some arch_root) :
    ∀ x, x ∈ compatible_microarchitectures_for_aarch64 targets detected false ↔
      (x ∈ targets.map Prod.snd ∧ arch_root = x.family ∧
       (x.vendor = "generic" ∨ x.vendor = detected.vendor) ∧
       x.features ⊆ detected.features ∧
       ¬(x.vendor = "generic" ∧ x.name ≠ "aarch64")) := by
  intro x
  rw [compatible_microarchitectures_for_aarch64, hr]
  show x ∈ aarchFilter targets arch_root detected none ↔ _
  rw [aarchFilter]
  rw [List.mem_filter]
  constructor
  · rintro ⟨hmem, hpred⟩
    refine ⟨hmem, ?_⟩
    by_cases h1 : x.vendor = "generic" ∧ x.name ≠ "aarch64"
    · rw [if_pos h1] at hpred
      cases hpred
    · rw [if_neg h1] at hpred
      by_cases h2 : arch_root = x.family ∧ (x.vendor = "generic" ∨ x.vendor = detected.vendor)
      · rw [if_neg (not_not_intro h2)] at hpred
        exact ⟨h2.1, h2.2, of_decide_eq_true hpred, h1⟩
      · rw [if_pos h2] at hpred
        cases hpred
  · rintro ⟨hmem, hfam, hven, hfeat, hnot⟩
    refine ⟨hmem, ?_⟩
    rw [if_neg hnot, if_neg (not_not_intro ⟨hfam, hven⟩)]
    exact decide_eq_true hfeat

/-- C2 counterexample: on the concrete graph with the aarch64 root and the
generic child armv8a, the child meets every condition of the claimed
candidate rule (same family root, vendor "generic", features contained in
the draft's) yet the code excludes it: the candidate set is the root alone. -/
theorem C2_counterexample :
    compatible_microarchitectures_for_aarch64 aaTargets (Microarchitecture.generic "")
        false = [aaRoot] ∧
    aaArmv8 ∈ aaTargets.map Prod.snd ∧
    aaArmv8.family = aaRoot ∧
    aaArmv8.vendor = "generic" ∧
    aaArmv8.features ⊆ (Microarchitecture.generic "").features ∧
    aaArmv8 ∉ compatible_microarchitectures_for_aarch64 aaTargets
        (Microarchitecture.generic "") false :=
  ⟨by decide, by decide, by decide, by decide, by decide, by decide⟩

/-- Witness for C2_aarch64_candidates at the concrete aarch64 graph. -/
theorem C2_witness :
    aaRoot ∈ compatible_microarchitectures_for_aarch64 aaTargets
        (Microarchitecture.generic "") false ↔
      (aaRoot ∈ aaTargets.map Prod.snd ∧ aaRoot = aaRoot.family ∧
       (aaRoot.vendor = "generic" ∨ aaRoot.vendor = (Microarchitecture.generic "").vendor) ∧
       aaRoot.features ⊆ (Microarchitecture.generic "").features ∧
       ¬(aaRoot.vendor = "generic" ∧ aaRoot.name ≠ "aarch64")) :=
  C2_aarch64_candidates aaTargets (Microarchitecture.generic "") aaRoot (by decide) aaRoot

/-! ### Claim C9 -/

theorem mem_bitsFold {registers : CpuIdRegisters} {name : String} :
    ∀ {bits : List CpuIdBits} {acc : Finset String},
      name ∈ bits.foldl
        (fun a b => if Nat.testBit (regValue registers b.register) b.bit
          then insert b.name a else a) acc ↔
      name ∈ acc ∨ ∃ b ∈ bits, b.name = name ∧
        Nat.testBit (regValue registers b.register) b.bit := by
  intro bits
  induction bits with
  | nil => intro acc; simp
  | cons b bs ih =>
    intro acc
    rw [List.foldl_cons]
    by_cases hb : Nat.testBit (regValue registers b.register) b.bit
    · rw [if_pos hb, ih]
      simp only [Finset.mem_insert, List.mem_cons]
      constructor
      · rintro ((rfl | ha) | ⟨b2, hb2, hn2, ht2⟩)
        · exact Or.inr ⟨b, Or.inl rfl, rfl, hb⟩
        · exact Or.inl ha
        · exact Or.inr ⟨b2, Or.inr hb2, hn2, ht2⟩
      · rintro (ha | ⟨b2, hb2 | hb2, hn2, ht2⟩)
        · exact Or.inl (Or.inr ha)
        · exact Or.inl (Or.inl (hb2 ▸ hn2.symm))
        · exact Or.inr ⟨b2, hb2, hn2, ht2⟩
    · rw [if_neg hb, ih]
      simp only [List.mem_cons]
      constructor
      · rintro (ha | ⟨b2, hb2, hn2, ht2⟩)
        · exact Or.inl ha
        · exact Or.inr ⟨b2, Or.inr hb2, hn2, ht2⟩
      · rintro (ha | ⟨b2, hb2 | hb2, hn2, ht2⟩)
        · exact Or.inl ha
        · exact absurd (hb2 ▸ ht2) hb
        · exact Or.inr ⟨b2, hb2, hn2, ht2⟩

theorem mem_flagsFold {provider : CpuIdProviderFn} {name : String} :
    ∀ {fl : List CpuIdFlags} {acc : Finset String},
      name ∈ flagsFold provider fl acc ↔
        name ∈ acc ∨ ∃ f ∈ fl, ∃ b ∈ f.bits, b.name = name ∧
          Nat.testBit (regValue (provider f.input.eax f.input.ecx) b.register) b.bit := by
  intro fl
  induction fl with
  | nil => intro acc; simp [flagsFold]
  | cons f fs ih =>
    intro acc
    rw [flagsFold, ih, mem_bitsFold]
    simp only [List.mem_cons]
    constructor
    · rintro ((ha | ⟨b, hb, hn, ht⟩) | ⟨f2, hf2, hrest⟩)
      · exact Or.inl ha
      · exact Or.inr ⟨f, Or.inl rfl, b, hb, hn, ht⟩
      · exact Or.inr ⟨f2, Or.inr hf2, hrest⟩
    · rintro (ha | ⟨f2, hf2 | hf2, hrest⟩)
      · exact Or.inl (Or.inl ha)
      · exact Or.inl (Or.inr (hf2 ▸ hrest))
      · exact Or.inr ⟨f2, hf2, hrest⟩

/-- The feature set of `CpuId::detect`, written with the two filtered flag
tables. -/
theorem cpuid_detect_features (schema : CpuIdSchema) (provider : CpuIdProviderFn) :
    (CpuId.detect schema provider).features = flagsFold provider
      ((schema.flags.filter fun f =>
          decide (f.input.eax ≤ (provider schema.vendor.eax schema.vendor.ecx).eax)) ++
       (schema.extension_flags.filter fun f =>
          decide (f.input.eax ≤ (provider schema.highest_extension_support.eax
            schema.highest_extension_support.ecx).eax))) ∅ := rfl

/-- C9: for every catalog-declared flag descriptor, when its required leaf
exceeds the applicable highest supported leaf (basic table against the basic
highest leaf, extension table against the extended one) none of its feature
names is detected; otherwise each declared name is detected exactly when the
declared bit of the declared register at the descriptor's (leaf, subleaf) is
set.  The hypothesis states that the schema declares every feature name at
most once, as the real cpuid catalog does. -/
theorem C9_cpuid_flags (schema : CpuIdSchema) (provider : CpuIdProviderFn)
    (huniq : FlagNamesUnique schema) :
    (∀ f ∈ schema.flags,
      ((provider schema.vendor.eax schema.vendor.ecx).eax < f.input.eax →
        ∀ b ∈ f.bits, b.name ∉ (CpuId.detect schema provider).features) ∧
      (f.input.eax ≤ (provider schema.vendor.eax schema.vendor.ecx).eax →
        ∀ b ∈ f.bits, (b.name ∈ (CpuId.detect schema provider).features ↔
          Nat.testBit (regValue (provider f.input.eax f.input.ecx) b.register) b.bit))) ∧
    (∀ f ∈ schema.extension_flags,
      ((provider schema.highest_extension_support.eax
          schema.highest_extension_support.ecx).eax < f.input.eax →
        ∀ b ∈ f.bits, b.name ∉ (CpuId.detect schema provider).features) ∧
      (f.input.eax ≤ (provider schema.highest_extension_support.eax
          schema.highest_extension_support.ecx).eax →
        ∀ b ∈ f.bits, (b.name ∈ (CpuId.detect schema provider).features ↔
          Nat.testBit (regValue (provider f.input.eax f.input.ecx) b.register) b.bit))) := by
  obtain ⟨hcross, hbasic, hext⟩ := huniq
  have hmem : ∀ name, name ∈ (CpuId.detect schema provider).features ↔
      ∃ f, ((f ∈ schema.flags ∧
          f.input.eax ≤ (provider schema.vendor.eax schema.vendor.ecx).eax) ∨
        (f ∈ schema.extension_flags ∧
          f.input.eax ≤ (provider schema.highest_extension_support.eax
            schema.highest_extension_support.ecx).eax)) ∧
        ∃ b ∈ f.bits, b.name = name ∧
          Nat.testBit (regValue (provider f.input.eax f.input.ecx) b.register) b.bit := by
    intro name
    rw [cpuid_detect_features, mem_flagsFold]
    simp only [Finset.not_mem_empty, false_or, List.mem_append, List.mem_filter,
      decide_eq_true_eq]
  constructor
  · intro f hf
    constructor
    · intro hgt b hb hcontra
      obtain ⟨f2, hf2, b2, hb2, hn2, ht2⟩ := (hmem b.name).mp hcontra
      rcases hf2 with ⟨hf2m, hf2le⟩ | ⟨hf2m, _⟩
      · obtain ⟨rfl, _⟩ := hbasic f2 hf2m f hf b2 hb2 b hb hn2
        omega
      · exact hcross f hf f2 hf2m b hb b2 hb2 hn2.symm
    · intro hle b hb
      rw [hmem b.name]
      constructor
      · rintro ⟨f2, hf2, b2, hb2, hn2, ht2⟩
        rcases hf2 with ⟨hf2m, _⟩ | ⟨hf2m, _⟩
        · obtain ⟨rfl, rfl⟩ := hbasic f2 hf2m f hf b2 hb2 b hb hn2
          exact ht2
        · exact absurd hn2.symm (hcross f hf f2 hf2m b hb b2 hb2)
      · intro ht
        exact ⟨f, Or.inl ⟨hf, hle⟩, b, hb, rfl, ht⟩
  · intro f hf
    constructor
    · intro hgt b hb hcontra
      obtain ⟨f2, hf2, b2, hb2, hn2, ht2⟩ := (hmem b.name).mp hcontra
      rcases hf2 with ⟨hf2m, _⟩ | ⟨hf2m, hf2le⟩
      · exact hcross f2 hf2m f hf b2 hb2 b hb hn2
      · obtain ⟨rfl, _⟩ := hext f2 hf2m f hf b2 hb2 b hb hn2
        omega
    · intro hle b hb
      rw [hmem b.name]
      constructor
      · rintro ⟨f2, hf2, b2, hb2, hn2, ht2⟩
        rcases hf2 with ⟨hf2m, _⟩ | ⟨hf2m, _⟩
        · exact absurd hn2 (hcross f2 hf2m f hf b2 hb2 b hb)
        · obtain ⟨rfl, rfl⟩ := hext f2 hf2m f hf b2 hb2 b hb hn2
          exact ht2
      · intro ht
        exact ⟨f, Or.inr ⟨hf, hle⟩, b, hb, rfl, ht⟩

/-- Witness for C9_cpuid_flags on the concrete schema and provider: the
supported basic descriptor detects "sse" exactly as its declared bit says,
and the unsupported extension descriptor contributes no "lm". -/
theorem C9_witness :
    ("sse" ∈ (CpuId.detect c9Schema c9Provider).features ↔
      Nat.testBit (regValue (c9Provider 1 0) CpuRegister.edx) 25) ∧
    "lm" ∉ (CpuId.detect c9Schema c9Provider).features := by
  have h := C9_cpuid_flags c9Schema c9Provider (by decide)
  constructor
  · exact (h.1 c9FlagBasic (by decide)).2 (by decide) ⟨"sse", CpuRegister.edx, 25⟩ (by decide)
  · exact (h.2 c9FlagExt (by decide)).1 (by decide) ⟨"lm", CpuRegister.edx, 29⟩ (by decide)

/-! ### Claim C4 -/

/-- C4 (amended): on linux and windows an explicit architecture override is
used verbatim; on macOS the override is ignored and the brand-string Rosetta
heuristic alone decides the architecture. -/
theorem C4_arch_override (env : DetectEnv) :
    (∀ arch, env.target_arch = some arch →
      resolveTargetArch env "linux" = some arch ∧
      resolveTargetArch env "windows" = some arch) ∧
    resolveTargetArch env "macos" =
      some (if hasSub ((env.sysctl "machdep.cpu.brand_string").getD "") "Apple"
        then "aarch64" else "x86_64") := by
  refine ⟨?_, ?_⟩
  · intro arch h
    constructor
    · rw [resolveTargetArch, if_pos rfl, h]
    · have h1 : ("windows" : String) ≠ "linux" := by decide
      rw [resolveTargetArch, if_neg h1, if_pos rfl, h]
  · have h1 : ("macos" : String) ≠ "linux" := by decide
    have h2 : ("macos" : String) ≠ "windows" := by decide
    rw [resolveTargetArch, if_neg h1, if_neg h2, if_pos rfl]

/-- C4 counterexample: with an explicit "x86_64" override supplied on macOS
and an Apple brand string, the architecture used for detection is "aarch64",
not the override: the explicit override does not take precedence over the
brand-string heuristic. -/
theorem C4_counterexample :
    envC4.target_arch = some "x86_64" ∧
    osOf envC4 = "macos" ∧
    resolveTargetArch envC4 (osOf envC4) = some "aarch64" :=
  ⟨rfl, rfl, by decide⟩

/-- Witness for C4_arch_override at concrete environments. -/
theorem C4_witness :
    (resolveTargetArch envLinux "linux" = some "x86_64" ∧
     resolveTargetArch envLinux "windows" = some "x86_64") ∧
    resolveTargetArch envC4 "macos" =
      some (if hasSub ((envC4.sysctl "machdep.cpu.brand_string").getD "") "Apple"
        then "aarch64" else "x86_64") :=
  ⟨(C4_arch_override envLinux).1 "x86_64" rfl, (C4_arch_override envC4).2⟩

/-! ### Lemmas for claim C3 -/

theorem resolve_none_cases {env : DetectEnv} {os : String}
    (h : resolveTargetArch env os = none) :
    os = "linux" ∧ env.target_arch = none ∧ env.uname_arch = none := by
  rw [resolveTargetArch] at h
  by_cases h1 : os = "linux"
  · rw [if_pos h1] at h
    cases ha : env.target_arch with
    | some a => rw [ha] at h; cases h
    | none => rw [ha] at h; exact ⟨h1, rfl, h⟩
  · rw [if_neg h1] at h
    by_cases h2 : os = "windows"
    · rw [if_pos h2] at h
      cases ha : env.target_arch with
      | some a => rw [ha] at h; cases h
      | none => rw [ha] at h; cases h
    · rw [if_neg h2] at h
      by_cases h3 : os = "macos"
      · rw [if_pos h3] at h; cases h
      · rw [if_neg h3] at h; cases h

theorem detectedArch_ok_osSupported {env : DetectEnv} {os ta : String}
    {d : Microarchitecture} (h : detectedArchFor env os ta = Except.ok d) :
    osSupported os := by
  rw [detectedArchFor] at h
  by_cases h1 : os = "linux"
  · exact Or.inl h1
  · rw [if_neg h1] at h
    by_cases h2 : os = "macos"
    · exact Or.inr (Or.inl h2)
    · rw [if_neg h2] at h
      by_cases h3 : os = "windows"
      · exact Or.inr (Or.inr h3)
      · rw [if_neg h3] at h; cases h

theorem detectedArch_error_cases {env : DetectEnv} {os ta : String}
    (h : detectedArchFor env os ta = Except.error UnsupportedMicroarchitecture.mk) :
    (os = "linux" ∧ env.cpu_info = none ∧ env.proc_cpu_info = none) ∨
    (os = "windows" ∧
      ta ∉ (["x86_64", "x86", "aarch64", "ppc64", "ppc64le", "riscv64"] : List String)) ∨
    ¬ osSupported os := by
  rw [detectedArchFor] at h
  by_cases h1 : os = "linux"
  · rw [if_pos h1] at h
    cases hc : env.cpu_info.or env.proc_cpu_info with
    | some info => rw [hc] at h; cases h
    | none =>
      cases hci : env.cpu_info with
      | some i => rw [hci] at hc; cases hc
      | none =>
        cases hpi : env.proc_cpu_info with
        | some i => rw [hci, hpi] at hc; cases hc
        | none => exact Or.inl ⟨h1, rfl, rfl⟩
  · rw [if_neg h1] at h
    by_cases h2 : os = "macos"
    · rw [if_pos h2] at h; cases h
    · rw [if_neg h2] at h
      by_cases h3 : os = "windows"
      · rw [if_pos h3] at h
        refine Or.inr (Or.inl ⟨h3, ?_⟩)
        rw [detect_windows] at h
        by_cases hx : ta = "x86_64" ∨ ta = "x86"
        · rw [if_pos hx] at h; cases h
        · rw [if_neg hx] at h
          by_cases hp : ta = "ppc64" ∨ ta = "ppc64le" ∨ ta = "aarch64" ∨ ta = "riscv64"
          · rw [if_pos hp] at h; cases h
          · intro hmem
            simp only [List.mem_cons, List.not_mem_nil, or_false] at hmem
            rcases hmem with rfl | rfl | rfl | rfl | rfl | rfl
            · exact hx (Or.inl rfl)
            · exact hx (Or.inr rfl)
            · exact hp (Or.inr (Or.inr (Or.inl rfl)))
            · exact hp (Or.inl rfl)
            · exact hp (Or.inr (Or.inl rfl))
            · exact hp (Or.inr (Or.inr (Or.inr rfl)))
      · refine Or.inr (Or.inr fun hs => ?_)
        rcases hs with h | h | h
        · exact h1 h
        · exact h2 h
        · exact h3 h

theorem resolveBest_error_iff {l : List Microarchitecture} :
    resolveBest l = Except.error UnsupportedMicroarchitecture.mk ↔
      l.filter (fun t => decide (t.vendor = "generic")) = [] := by
  rw [resolveBest]
  cases hs : sortedLast (l.filter fun t => decide (t.vendor = "generic")) with
  | none =>
    simp only [true_iff]
    exact sortedLast_eq_none_iff.mp hs
  | some g =>
    constructor
    · intro h; cases h
    · intro h
      rw [h] at hs
      cases hs

theorem noFamilyRoot_empty {env : DetectEnv} {os ta : String}
    {d : Microarchitecture} (h : noFamilyRoot env.targets ta) :
    compatibleTargetsFor env os ta d = [] := by
  rw [compatibleTargetsFor]
  rcases h with ⟨rfl, hl⟩ | ⟨hp, hl⟩ | ⟨rfl, hl⟩ | ⟨hx, hl⟩ | hnot
  · rw [if_pos rfl, compatible_microarchitectures_for_aarch64, hl]
  · rcases hp with rfl | rfl
    · have h1 : ("ppc64" : String) ≠ "aarch64" := by decide
      rw [if_neg h1, if_pos (Or.inl rfl), compatible_microarchitectures_for_ppc64]
      rw [show (if (decide (("ppc64" : String) = "ppc64le")) = true
        then "ppc64le" else "ppc64") = "ppc64" from rfl, hl]
    · have h1 : ("ppc64le" : String) ≠ "aarch64" := by decide
      rw [if_neg h1, if_pos (Or.inr rfl), compatible_microarchitectures_for_ppc64]
      rw [show (if (decide (("ppc64le" : String) = "ppc64le")) = true
        then "ppc64le" else "ppc64") = "ppc64le" from rfl, hl]
  · have h1 : ("riscv64" : String) ≠ "aarch64" := by decide
    have h2 : ¬(("riscv64" : String) = "ppc64" ∨ ("riscv64" : String) = "ppc64le") := by decide
    rw [if_neg h1, if_neg h2, if_pos rfl, compatible_microarchitectures_for_riscv64, hl]
  · rcases hx with rfl | rfl
    · have h1 : ("x86_64" : String) ≠ "aarch64" := by decide
      have h2 : ¬(("x86_64" : String) = "ppc64" ∨ ("x86_64" : String) = "ppc64le") := by decide
      have h3 : ("x86_64" : String) ≠ "riscv64" := by decide
      rw [if_neg h1, if_neg h2, if_neg h3, if_pos (Or.inl rfl),
        compatible_microarchitectures_for_x86_64, hl]
    · have h1 : ("x86" : String) ≠ "aarch64" := by decide
      have h2 : ¬(("x86" : String) = "ppc64" ∨ ("x86" : String) = "ppc64le") := by decide
      have h3 : ("x86" : String) ≠ "riscv64" := by decide
      rw [if_neg h1, if_neg h2, if_neg h3, if_pos (Or.inr rfl),
        compatible_microarchitectures_for_x86_64, hl]
  · have h1 : ta ≠ "aarch64" := fun hh => hnot (by rw [hh]; decide)
    have h2 : ¬(ta = "ppc64" ∨ ta = "ppc64le") := by
      rintro (hh | hh) <;> exact hnot (by rw [hh]; decide)
    have h3 : ta ≠ "riscv64" := fun hh => hnot (by rw [hh]; decide)
    have h4 : ¬(ta = "x86_64" ∨ ta = "x86") := by
      rintro (hh | hh) <;> exact hnot (by rw [hh]; decide)
    rw [if_neg h1, if_neg h2, if_neg h3, if_neg h4]

/-! ### Claim C3 -/

/-- C3 (amended): detect() returns the UnsupportedMicroarchitecture error if
and only if the target OS is not one of linux, macos, windows (the condition
the claim omits), a required OS query fails, the resolved architecture has no
matching family root in the catalog, or the computed candidate set contains
no generic candidate; for every other input it returns a node handle. -/
theorem C3_error_conditions (env : DetectEnv) :
    TargetDetector.detect env = Except.error UnsupportedMicroarchitecture.mk ↔
      (¬ osSupported (osOf env) ∨ requiredQueryFails env ∨
       (∃ target_arch, resolveTargetArch env (osOf env) = some target_arch ∧
         noFamilyRoot env.targets target_arch) ∨
       (∃ cands, candidateSet env = some cands ∧
         cands.filter (fun t => decide (t.vendor = "generic")) = [])) := by
  cases hra : resolveTargetArch env (osOf env) with
  | none =>
    have hd : TargetDetector.detect env =
        Except.error UnsupportedMicroarchitecture.mk := by
      simp only [TargetDetector.detect, hra]
    obtain ⟨ho, hta, hun⟩ := resolve_none_cases hra
    rw [hd]
    constructor
    · intro _
      exact Or.inr (Or.inl ⟨ho, Or.inl ⟨hta, hun⟩⟩)
    · intro _
      rfl
  | some ta =>
    cases hda : detectedArchFor env (osOf env) ta with
    | error e =>
      cases e
      have hd : TargetDetector.detect env =
          Except.error UnsupportedMicroarchitecture.mk := by
        simp only [TargetDetector.detect, hra, hda]
      rw [hd]
      constructor
      · intro _
        rcases detectedArch_error_cases hda with ⟨ho, hci, hpi⟩ | ⟨ho, hmem⟩ | hos
        · exact Or.inr (Or.inl ⟨ho, Or.inr ⟨hci, hpi⟩⟩)
        · exact Or.inr (Or.inr (Or.inl
            ⟨ta, rfl, Or.inr (Or.inr (Or.inr (Or.inr hmem)))⟩))
        · exact Or.inl hos
      · intro _
        rfl
    | ok detected =>
      have hd : TargetDetector.detect env =
          resolveBest (compatibleTargetsFor env (osOf env) ta detected) := by
        simp only [TargetDetector.detect, hra, hda]
      have hcand : candidateSet env =
          some (compatibleTargetsFor env (osOf env) ta detected) := by
        simp only [candidateSet, hra, hda]
      rw [hd]
      constructor
      · intro h
        exact Or.inr (Or.inr (Or.inr ⟨_, hcand, resolveBest_error_iff.mp h⟩))
      · rintro (hos | hq | ⟨ta2, hta2, hnfr⟩ | ⟨cands, hcands, hnil⟩)
        · exact absurd (detectedArch_ok_osSupported hda) hos
        · obtain ⟨ho, hq⟩ := hq
          rcases hq with ⟨hta, hun⟩ | ⟨hci, hpi⟩
          · rw [ho] at hra
            rw [resolveTargetArch, if_pos (show ("linux" : String) = "linux" from rfl),
              hta, hun] at hra
            cases hra
          · rw [ho] at hda
            rw [detectedArchFor, if_pos (show ("linux" : String) = "linux" from rfl),
              hci, hpi] at hda
            cases hda
        · cases hta2
          rw [resolveBest_error_iff, noFamilyRoot_empty hnfr]
          rfl
        · rw [hcand] at hcands
          cases hcands
          exact resolveBest_error_iff.mpr hnil

/-- C3 counterexample: with a target OS of "freebsd" and every OS facility
healthy, the detector errors although none of the claim's three conditions
holds: the resolved architecture x86_64 has a matching family root (and a
generic candidate) in the catalog, and no OS query failed or was even
required. -/
theorem C3_counterexample :
    TargetDetector.detect envC3 = Except.error UnsupportedMicroarchitecture.mk ∧
    resolveTargetArch envC3 (osOf envC3) = some "x86_64" ∧
    ¬ noFamilyRoot envC3.targets "x86_64" ∧
    ¬ requiredQueryFails envC3 ∧
    candidateSet envC3 = none ∧
    envC3.targets.lookup "x86_64" = some exRoot ∧
    exRoot.vendor = "generic" :=
  ⟨by decide, by decide, by decide, by decide, by decide, by decide, by decide⟩

example : TargetDetector.detect envLinux = Except.ok exIce := by decide
